import Mathlib

/-!
Verification of the vlc-playlist-generator core (src/main.rs, src/xml.rs).

Modelling conventions:
* An absolute filesystem path is modelled as its list of segments
  (`/a/b/c.mkv` becomes `["a", "b", "c.mkv"]`; the filesystem root `/` is `[]`).
  `Path::parent` (= `ancestors().skip(1).next()`) is `List.dropLast`, and is
  unavailable (Rust: `None`, so `.unwrap()` panics) exactly on `[]`.
  `Path::file_name` is `List.getLast?`.  All names are assumed valid UTF-8, so
  `OsStr::to_str` never fails in the model.
* Rust `HashMap<PathBuf, PendingNode>` is modelled as an association list with
  front insertion; `lk` returns the most recently inserted binding, matching
  `HashMap::insert` replacement semantics observationally.
* Panicking operations (`unwrap`, `unreachable!`) are modelled by `Option`:
  `none` is an aborted run.
* Rust `String`/`OsString` comparison is byte-wise lexicographic on UTF-8; on
  codepoint lists that order coincides with lexicographic comparison of
  codepoints, which is what `lexCmp` computes.
-/

abbrev FsPath := List String

/-- `Track` from src/main.rs lines 19-23 (the `location` keeps the segment-list
form; `title`, `duration` as in the source). -/
structure Track where
  location : FsPath
  title : String
  duration : Nat
deriving DecidableEq, Repr

/-- `PendingNode` from src/main.rs lines 117-123. -/
inductive PendingNode where
  | dir (title : String) (node_paths : List FsPath)
  | file (idx : Nat) (name : String)
deriving DecidableEq, Repr

/-- `PendingNodeMap` from src/main.rs lines 125-128. -/
structure PendingNodeMap where
  nodes : List (FsPath × PendingNode)
  roots : List FsPath
deriving DecidableEq, Repr

/-- Association-list lookup: the model of `HashMap::get` / `contains_key`. -/
def lk (ns : List (FsPath × PendingNode)) (q : FsPath) : Option PendingNode :=
  match ns with
  | [] => none
  | (p, n) :: rest => if p = q then some n else lk rest q

/-- Title given to a directory created on demand in `node_for_dir_of`
(src/main.rs lines 157-161): `file_name().unwrap_or("?")` with UTF-8 names. -/
def dirTitle (p : FsPath) : String := (p.getLast?).getD "?"

/-- Title given to a pre-registered root in `PendingNodeMap::new`
(src/main.rs lines 134-139): `file_name().unwrap_or("")` with UTF-8 names. -/
def rootTitle (p : FsPath) : String := (p.getLast?).getD ""

/-- `PendingNodeMap::new` (src/main.rs lines 131-151): pre-register every root
as an empty directory staging node titled by its base name. -/
def PendingNodeMap.new (roots : List FsPath) : PendingNodeMap :=
  { nodes := roots.foldl (fun ns r => (r, PendingNode.dir (rootTitle r) []) :: ns) []
  , roots := roots }

/-- `PendingNodeMap::node_for_dir_of` (src/main.rs lines 153-178).
Ensures the parent directory of `path` exists (creating the whole missing
ancestor chain, each new directory wired into its own parent by the recursive
call), then appends `path` to the parent's `node_paths`.
`none` models the panics: `ancestors().skip(1).next().unwrap()` on a parentless
path, and the `unreachable!` arm when the parent entry is a `File`. -/
def PendingNodeMap.node_for_dir_of (m : PendingNodeMap) : FsPath → Option PendingNodeMap
  | [] => none
  | s :: rest =>
    let path := s :: rest
    let parent := path.dropLast
    let ensured : Option PendingNodeMap :=
      if (lk m.nodes parent).isSome then some m
      else PendingNodeMap.node_for_dir_of
        { m with nodes := (parent, PendingNode.dir (dirTitle parent) []) :: m.nodes } parent
    match ensured with
    | none => none
    | some m1 =>
      match lk m1.nodes parent with
      | some (PendingNode.dir t cs) =>
        some { m1 with nodes := (parent, PendingNode.dir t (cs ++ [path])) :: m1.nodes }
      | _ => none
termination_by p => p.length
decreasing_by
  simp [path, parent, List.length_dropLast]

/-- `PendingNodeMap::push_file` (src/main.rs lines 180-186): resolve ancestors,
then insert the leaf staging node keyed by the file's path.
`path.file_name().unwrap()` is total here because `node_for_dir_of` has already
rejected `[]`. -/
def PendingNodeMap.push_file (m : PendingNodeMap) (path : FsPath) (index : Nat) :
    Option PendingNodeMap :=
  match m.node_for_dir_of path with
  | none => none
  | some m1 =>
    match path.getLast? with
    | none => none
    | some name => some { m1 with nodes := (path, PendingNode.file index name) :: m1.nodes }

/-- The discovery phase of `main` restricted to the accepted files: each
accepted path is pushed with index `tracks.len()`, i.e. its arrival position
(src/main.rs lines 262-263 and 269-270). -/
def pushFiles (m : PendingNodeMap) : List FsPath → Nat → Option PendingNodeMap
  | [], _ => some m
  | f :: fs, i =>
    match m.push_file f i with
    | none => none
    | some m' => pushFiles m' fs (i + 1)

/-- The chain of missing proper ancestor keys that `node_for_dir_of` creates:
from `path.dropLast` downwards, stopping just above the first existing key.
(Proof-side description of the recursion; not part of the source.) -/
def missChain (m : PendingNodeMap) : FsPath → List FsPath
  | [] => []
  | s :: rest =>
    let parent := (s :: rest).dropLast
    if (lk m.nodes parent).isSome then [] else parent :: missChain m parent
termination_by p => p.length
decreasing_by
  simp [parent, List.length_dropLast]

/-- The first existing proper ancestor of `path` (the key at which the
`node_for_dir_of` recursion stops); `none` when every proper ancestor is
missing, i.e. when the recursion reaches a parentless path and panics. -/
def stopOf (m : PendingNodeMap) : FsPath → Option FsPath
  | [] => none
  | s :: rest =>
    let parent := (s :: rest).dropLast
    if (lk m.nodes parent).isSome then some parent else stopOf m parent
termination_by p => p.length
decreasing_by
  simp [parent, List.length_dropLast]

/-! ## The realized playlist tree (src/main.rs lines 43-100) -/

/-- Lexicographic comparison of codepoint lists: the model of Rust's `Ord` on
`String`/`OsString` (byte-wise on UTF-8, which orders like codepoints). -/
def lexCmp : List Char → List Char → Ordering
  | [], [] => .eq
  | [], _ :: _ => .lt
  | _ :: _, [] => .gt
  | a :: as, b :: bs =>
    match compare a.toNat b.toNat with
    | .eq => lexCmp as bs
    | o => o

/-- String comparison via `lexCmp` on the underlying characters. -/
def strCmp (s t : String) : Ordering := lexCmp s.data t.data

/-- `PlaylistNode` from src/main.rs lines 43-50. -/
inductive PlaylistNode where
  | dir (title : String) (nodes : List PlaylistNode)
  | file (idx : Nat) (name : String)

/-- The manual `PartialOrd` impl for `PlaylistNode` (src/main.rs lines 52-68):
directories before files; directories by title; files by file name (the track
index plays no role).  `String::partial_cmp` is total, so every arm is `some`. -/
def pcmp : PlaylistNode → PlaylistNode → Option Ordering
  | .dir _ _, .file _ _ => some .lt
  | .file _ _, .dir _ _ => some .gt
  | .dir t1 _, .dir t2 _ => some (strCmp t1 t2)
  | .file _ p1, .file _ p2 => some (strCmp p1 p2)

/-- `PartialOrd::lt`, the comparison `slice::sort` (a stable merge sort) is
driven by. -/
def nodeLt (a b : PlaylistNode) : Bool := decide (pcmp a b = some Ordering.lt)

/-- The "not strictly greater" order used to express the stable sort:
`nodeLe a b` holds when the sort does not need to put `b` before `a`. -/
def nodeLe (a b : PlaylistNode) : Bool := !(nodeLt b a)

/-- `PlaylistNode::sort` (src/main.rs lines 89-99): stable-sort the children,
then recursively sort each child.  Rust's stable `slice::sort` driven by
`PartialOrd::lt` is modelled by `List.mergeSort nodeLe` (both are stable merge
sorts with respect to the same strict weak order). -/
def PlaylistNode.sort : PlaylistNode → PlaylistNode
  | .file i s => .file i s
  | .dir t cs => .dir t (((cs.mergeSort nodeLe).attach).map fun x => PlaylistNode.sort x.1)
termination_by n => sizeOf n
decreasing_by
  have hx : x.1 ∈ cs.mergeSort nodeLe := x.2
  have hx2 : x.1 ∈ cs := ((List.mergeSort_perm cs nodeLe).mem_iff).mp hx
  have h3 := List.sizeOf_lt_of_mem hx2
  simp only [PlaylistNode.dir.sizeOf_spec]
  omega

/-- The top-level sorting phase of `main` (src/main.rs lines 333-337):
`nodes.sort()` followed by `n.sort()` on each node. -/
def sortForest (ns : List PlaylistNode) : List PlaylistNode :=
  (ns.mergeSort nodeLe).map PlaylistNode.sort

mutual
/-- `PlaylistNode::new` (src/main.rs lines 71-87): realize the staging node
keyed by `root`, recursing through the registered child paths.
The Rust recursion is structural on the (acyclic) staging map; the model makes
it total with a `fuel` bound on the recursion depth, and `none` models both
fuel exhaustion and the `unwrap` panic on a missing key.  All theorems supply
fuel exceeding the longest key, where the two coincide. -/
def PlaylistNode.new (m : PendingNodeMap) : Nat → FsPath → Option PlaylistNode
  | 0, _ => none
  | fuel + 1, root =>
    match lk m.nodes root with
    | some (PendingNode.dir t node_paths) =>
      match PlaylistNode.newList m fuel node_paths with
      | some ns => some (PlaylistNode.dir t ns)
      | none => none
    | some (PendingNode.file i s) => some (PlaylistNode.file i s)
    | none => none
termination_by fuel _ => (fuel, 0)

/-- The `for path in node_paths` loop inside `PlaylistNode::new`. -/
def PlaylistNode.newList (m : PendingNodeMap) : Nat → List FsPath → Option (List PlaylistNode)
  | _, [] => some []
  | fuel, p :: ps =>
    match PlaylistNode.new m fuel p with
    | none => none
    | some n =>
      match PlaylistNode.newList m fuel ps with
      | none => none
      | some ns => some (n :: ns)
termination_by fuel ps => (fuel, ps.length + 1)
end

/-- `PendingNodeMap::into_nodes` (src/main.rs lines 188-197): one realized
top-level node per configured root, in configuration order. -/
def PendingNodeMap.into_nodes (m : PendingNodeMap) (fuel : Nat) :
    Option (List PlaylistNode) :=
  PlaylistNode.newList m fuel m.roots

mutual
/-- The track indices stored in the leaves of a realized tree, in left-to-right
order (proof-side observation function). -/
def leafIndices : PlaylistNode → List Nat
  | .file i _ => [i]
  | .dir _ ns => leafIndicesList ns
/-- `leafIndices` over a forest. -/
def leafIndicesList : List PlaylistNode → List Nat
  | [] => []
  | n :: ns => leafIndices n ++ leafIndicesList ns
end

/-- A playlist tree with the leaf indices erased: node kinds, directory titles
and leaf file names only ("the same sorted tree up to the index values"). -/
inductive NodeShape where
  | dir (title : String) (nodes : List NodeShape)
  | file (name : String)

mutual
/-- Erase the indices of a realized tree. -/
def shapeOf : PlaylistNode → NodeShape
  | .dir t ns => .dir t (shapeOfList ns)
  | .file _ s => .file s
/-- `shapeOf` over a forest. -/
def shapeOfList : List PlaylistNode → List NodeShape
  | [] => []
  | n :: ns => shapeOf n :: shapeOfList ns
end

/-! ## Serialization (src/xml.rs)

The output is modelled as the list of lines written: each `writeln!` call in
the source contributes one entry (the indentation `write!("\t")` loops in
`nodes_into_xml` are folded into their line's entry). -/

/-- Modelled from the spec: the percent-encoding primitive
(`url_escape::encode_component`, an external crate; §1 of the spec treats
path/URI escaping primitives as black boxes).  Per that crate's documentation
it behaves like JavaScript `encodeURIComponent`: ASCII alphanumerics and
`-_.!~*()` (and the apostrophe, codepoint 39) are kept, every other character
is percent-encoded byte-wise (UTF-8, uppercase hex). -/
def componentUnescaped (c : Char) : Bool :=
  (65 ≤ c.toNat && c.toNat ≤ 90) || (97 ≤ c.toNat && c.toNat ≤ 122) ||
  (48 ≤ c.toNat && c.toNat ≤ 57) ||
  c = '-' || c = '_' || c = '.' || c = '!' || c = '~' || c = '*' ||
  c.toNat = 39 || c = '(' || c = ')'

/-- Uppercase hexadecimal digit for `0 ≤ n < 16`. -/
def hexDigit (n : Nat) : Char := if n < 10 then Char.ofNat (48 + n) else Char.ofNat (55 + n)

/-- The UTF-8 encoding of a character, as byte values. -/
def utf8Bytes (c : Char) : List Nat :=
  let n := c.toNat
  if n < 128 then [n]
  else if n < 2048 then [192 + n / 64, 128 + n % 64]
  else if n < 65536 then [224 + n / 4096, 128 + (n / 64) % 64, 128 + n % 64]
  else [240 + n / 262144, 128 + (n / 4096) % 64, 128 + (n / 64) % 64, 128 + n % 64]

/-- Modelled from the spec: `url_escape::encode_component` (see
`componentUnescaped`). -/
def url_escape.encode_component (s : String) : String :=
  String.mk (s.data.flatMap fun c =>
    if componentUnescaped c then [c]
    else (utf8Bytes c).flatMap fun b => ['%', hexDigit (b / 16), hexDigit (b % 16)])

/-- Modelled from the spec: the text-escaping primitive
(`html_escape::encode_text`, an external crate; a black box per §1).  Per that
crate's documentation it escapes exactly the three characters `&`, `<`, `>`
used in HTML text context. -/
def html_escape.encode_text (s : String) : String :=
  String.mk (s.data.flatMap fun c =>
    if c = '&' then "&amp;".data
    else if c = '<' then "&lt;".data
    else if c = '>' then "&gt;".data
    else [c])

/-- `Path::to_string_lossy` on the segment-list model of an absolute path. -/
def pathString (p : FsPath) : String := "/" ++ String.intercalate "/" p

/-- `TrackList` from src/main.rs lines 39-41. -/
structure TrackList where
  tracks : List Track

/-- `Playlist` from src/main.rs lines 102-105. -/
structure Playlist where
  track_list : TrackList
  nodes : List PlaylistNode

def XML_HEADER : String := "<?xml version=\"1.0\" encoding=\"UTF-8\"?>"

def PLAYLIST_START_TAG : String :=
  "<playlist xmlns=\"http://xspf.org/ns/0/\" xmlns:vlc=\"http://www.videolan.org/vlc/playlist/ns/0/\" version=\"1\">"

def PLAYLIST_END_TAG : String := "</playlist>"

def TITLE_START_TAG : String := "<title>"

def TITLE_END_TAG : String := "</title>"

def TRACKLIST_START_TAG : String := "<trackList>"

def TRACKLIST_END_TAG : String := "</trackList>"

def TRACK_START_TAG : String := "<track>"

def TRACK_END_TAG : String := "</track>"

def LOCATION_START_TAG : String := "<location>"

def LOCATION_END_TAG : String := "</location>"

def DURATION_START_TAG : String := "<duration>"

def DURATION_END_TAG : String := "</duration>"

def EXTENSION_START_TAG : String :=
  "<extension application=\"http://www.videolan.org/vlc/playlist/0\">"

def EXTENSION_END_TAG : String := "</extension>"

def VLC_ID_START_TAG : String := "<vlc:id>"

def VLC_ID_END_TAG : String := "</vlc:id>"

/-- `indent` tab characters. -/
def tabs (n : Nat) : String := String.mk (List.replicate n '\t')

/-- `nodes_into_xml` from src/xml.rs lines 24-53: `vlc:item` with the track
index as `tid` for a leaf, `vlc:node` with the title written into the `title`
attribute (verbatim, no escaping) for a directory. -/
def nodes_into_xml (indent : Nat) : List PlaylistNode → List String
  | [] => []
  | PlaylistNode.file idx _ :: rest =>
    (tabs indent ++ "<vlc:item tid=\"" ++ Nat.repr idx ++ "\"/>") :: nodes_into_xml indent rest
  | PlaylistNode.dir title nodes :: rest =>
    ((tabs indent ++ "<vlc:node title=\"" ++ title ++ "\">") :: nodes_into_xml (indent + 1) nodes)
    ++ ((tabs indent ++ "</vlc:node>") :: nodes_into_xml indent rest)
termination_by l => sizeOf l

/-- The eight lines written for the track of index `i` by the loop in
`into_xml` (src/xml.rs lines 66-105). -/
def trackLines (i : Nat) (track : Track) : List String :=
  [ "\t\t" ++ TRACK_START_TAG
  , "\t\t\t" ++ LOCATION_START_TAG ++ "file://"
      ++ url_escape.encode_component (pathString track.location) ++ LOCATION_END_TAG
  , "\t\t\t" ++ TITLE_START_TAG ++ html_escape.encode_text track.title ++ TITLE_END_TAG
  , "\t\t\t" ++ DURATION_START_TAG ++ Nat.repr track.duration ++ DURATION_END_TAG
  , "\t\t\t" ++ EXTENSION_START_TAG
  , "\t\t\t\t" ++ VLC_ID_START_TAG ++ Nat.repr i ++ VLC_ID_END_TAG
  , "\t\t\t" ++ EXTENSION_END_TAG
  , "\t\t" ++ TRACK_END_TAG ]

/-- `into_xml` from src/xml.rs lines 55-114, as the list of written lines. -/
def into_xml (playlist : Playlist) : List String :=
  [ XML_HEADER
  , PLAYLIST_START_TAG
  , "\t" ++ TITLE_START_TAG ++ "Media Library" ++ TITLE_END_TAG
  , "\t" ++ TRACKLIST_START_TAG ]
  ++ (playlist.track_list.tracks.enum.flatMap fun p => trackLines p.1 p.2)
  ++ [ "\t" ++ TRACKLIST_END_TAG
  , "\t" ++ EXTENSION_START_TAG ]
  ++ nodes_into_xml 2 playlist.nodes
  ++ [ "\t" ++ EXTENSION_END_TAG
  , PLAYLIST_END_TAG ]

/-! ## The walker filter (src/main.rs lines 248-287) -/

/-- The slice of `fs::Metadata` the filter consults. -/
structure EntryMeta where
  is_file : Bool
  is_dir : Bool

/-- The slice of `walkdir::DirEntry` the filter consults; `meta = none` models
a failed `entry.metadata()` call. -/
structure DirEntry where
  path : FsPath
  meta : Option EntryMeta

/-- Split a name at its last dot: `some (stem, ext)` with `ext` the part after
the last `.`, `none` when there is no dot. -/
def lastDotSplit : List Char → Option (List Char × List Char)
  | [] => none
  | c :: cs =>
    match lastDotSplit cs with
    | some (st, e) => some (c :: st, e)
    | none => if c = '.' then some ([], cs) else none

/-- `Path::extension`: the part of the file name after its last dot, none when
there is no dot or when the only dot leads the name (hidden files). -/
def extension (p : FsPath) : Option String :=
  match p.getLast? with
  | none => none
  | some name =>
    match lastDotSplit name.data with
    | some ([], _) => none
    | some (_ :: _, e) => some (String.mk e)
    | none => none

/-- One evaluation of the closure returned by `filter` (src/main.rs lines
248-287), acting on the captured `tracks` / `nodes` state.  The metadata
probes `mkv_meta` / `mp4_meta` (src/main.rs lines 200-245) do file I/O and are
passed as black-box parameters, per §1/§6 of the spec (`probe(path) ->
Option Track`).  The returned `Bool` is the filter verdict handed to walkdir;
`none` propagates a `push_file` panic. -/
def filter (skip : List FsPath) (mkv_meta mp4_meta : FsPath → Option Track)
    (tracks : List Track) (nodes : PendingNodeMap) (entry : DirEntry) :
    Option (Bool × List Track × PendingNodeMap) :=
  match entry.meta with
  | none => some (false, tracks, nodes)
  | some meta =>
    if meta.is_file then
      match extension entry.path with
      | some ext =>
        if ext = "mkv" then
          match mkv_meta entry.path with
          | some track =>
            match nodes.push_file entry.path tracks.length with
            | none => none
            | some nodes' => some (true, tracks ++ [track], nodes')
          | none => some (false, tracks, nodes)
        else if ext = "mp4" then
          match mp4_meta entry.path with
          | some track =>
            match nodes.push_file entry.path tracks.length with
            | none => none
            | some nodes' => some (true, tracks ++ [track], nodes')
          | none => some (false, tracks, nodes)
        else some (false, tracks, nodes)
      | none => some (false, tracks, nodes)
    else if meta.is_dir then
      some ((skip.find? fun e => e == entry.path).isNone, tracks, nodes)
    else some (false, tracks, nodes)

/-! ## Prefix order preliminaries -/

/-- `q` is a proper ancestor-or-self strictly above `p`: a proper prefix. -/
def SPre (q p : FsPath) : Prop := q <+: p ∧ q ≠ p

instance (q p : FsPath) : Decidable (SPre q p) := by
  unfold SPre
  infer_instance

theorem sPre_iff_dropLast {q p : FsPath} (hp : p ≠ []) :
    SPre q p ↔ q <+: p.dropLast := by
  constructor
  · rintro ⟨hpre, hne⟩
    have hlt : q.length < p.length := by
      rcases Nat.lt_or_ge q.length p.length with h | h
      · exact h
      · exact absurd (hpre.eq_of_length (Nat.le_antisymm hpre.length_le h)) hne
    rw [List.dropLast_eq_take]
    rw [List.prefix_take_iff]
    exact ⟨hpre, by omega⟩
  · intro h
    have h1 : q <+: p := h.trans (List.dropLast_prefix p)
    refine ⟨h1, ?_⟩
    intro hqp
    subst hqp
    have := h.length_le
    rw [List.length_dropLast] at this
    have hpos : 0 < q.length := List.length_pos.mpr hp
    omega

theorem sPre_trans_left {a q p : FsPath} (h1 : a <+: q) (h2 : SPre q p) : SPre a p ∨ a = q := by
  rcases eq_or_ne a q with h | h
  · exact Or.inr h
  · exact Or.inl ⟨h1.trans h2.1, by
      rintro rfl
      exact h2.2 (h2.1.eq_of_length (Nat.le_antisymm h2.1.length_le h1.length_le))⟩

theorem sPre_of_pre_of_sPre {a q p : FsPath} (h1 : a <+: q) (h2 : SPre q p) : SPre a p := by
  refine ⟨h1.trans h2.1, ?_⟩
  rintro rfl
  exact h2.2 (h2.1.eq_of_length (Nat.le_antisymm h2.1.length_le h1.length_le))

/-- Two prefixes of a common list are comparable; with a length gap, strictly. -/
theorem pre_total_of_pre {a b p : FsPath} (ha : a <+: p) (hb : b <+: p)
    (hlen : a.length ≤ b.length) : a <+: b := by
  rcases List.prefix_or_prefix_of_prefix ha hb with h | h
  · exact h
  · have := h.eq_of_length (Nat.le_antisymm h.length_le hlen)
    rw [this]

/-! ## Lookup basics -/

theorem lk_cons (p : FsPath) (n : PendingNode) (ns : List (FsPath × PendingNode)) (q : FsPath) :
    lk ((p, n) :: ns) q = if p = q then some n else lk ns q := rfl

theorem lk_cons_self (p : FsPath) (n : PendingNode) (ns : List (FsPath × PendingNode)) :
    lk ((p, n) :: ns) p = some n := by
  simp [lk]

theorem lk_cons_ne (p : FsPath) (n : PendingNode) (ns : List (FsPath × PendingNode))
    (q : FsPath) (h : p ≠ q) : lk ((p, n) :: ns) q = lk ns q := by
  simp [lk, h]

/-! ## Characterizing `stopOf` and `missChain` -/

theorem stopOf_spec_mem {m : PendingNodeMap} {p a : FsPath} (h : stopOf m p = some a) :
    SPre a p ∧ (lk m.nodes a).isSome := by
  induction p using stopOf.induct m with
  | case1 => simp [stopOf] at h
  | case2 s rest par hpar =>
    rw [stopOf] at h
    simp only [par] at *
    rw [if_pos hpar] at h
    cases h
    constructor
    · rw [sPre_iff_dropLast (by simp)]
    · exact hpar
  | case3 s rest par hpar ih =>
    rw [stopOf] at h
    simp only [par] at *
    rw [if_neg hpar] at h
    obtain ⟨h1, h2⟩ := ih h
    refine ⟨sPre_of_pre_of_sPre h1.1 ?_, h2⟩
    rw [sPre_iff_dropLast (by simp)]

theorem stopOf_spec_max {m : PendingNodeMap} {p a : FsPath} (h : stopOf m p = some a) :
    ∀ q, SPre q p → a.length < q.length → lk m.nodes q = none := by
  induction p using stopOf.induct m with
  | case1 => simp [stopOf] at h
  | case2 s rest par hpar =>
    rw [stopOf] at h
    simp only [par] at *
    rw [if_pos hpar] at h
    cases h
    intro q hq hlen
    rw [sPre_iff_dropLast (by simp)] at hq
    have := hq.length_le
    omega
  | case3 s rest par hpar ih =>
    rw [stopOf] at h
    simp only [par] at *
    rw [if_neg hpar] at h
    intro q hq hlen
    rw [sPre_iff_dropLast (by simp)] at hq
    rcases eq_or_ne q ((s :: rest).dropLast) with rfl | hne
    · exact Option.not_isSome_iff_eq_none.mp hpar
    · exact ih h q ⟨hq, hne⟩ hlen

theorem stopOf_none_spec {m : PendingNodeMap} {p : FsPath} (h : stopOf m p = none) :
    ∀ q, SPre q p → lk m.nodes q = none := by
  induction p using stopOf.induct m with
  | case1 =>
    intro q hq
    obtain ⟨h1, h2⟩ := hq
    exact absurd (List.prefix_nil.mp h1) h2
  | case2 s rest par hpar =>
    rw [stopOf] at h
    simp only [par] at *
    rw [if_pos hpar] at h
    cases h
  | case3 s rest par hpar ih =>
    rw [stopOf] at h
    simp only [par] at *
    rw [if_neg hpar] at h
    intro q hq
    rw [sPre_iff_dropLast (by simp)] at hq
    rcases eq_or_ne q ((s :: rest).dropLast) with rfl | hne
    · exact Option.not_isSome_iff_eq_none.mp hpar
    · exact ih h q ⟨hq, hne⟩

theorem stopOf_isSome_of_present {m : PendingNodeMap} {p r : FsPath} (hr : SPre r p)
    (hpres : (lk m.nodes r).isSome) : ∃ a, stopOf m p = some a ∧ r <+: a := by
  cases ha : stopOf m p with
  | none =>
    rw [stopOf_none_spec ha r hr] at hpres
    cases hpres
  | some a =>
    refine ⟨a, rfl, ?_⟩
    obtain ⟨haP, _⟩ := stopOf_spec_mem ha
    rcases Nat.lt_or_ge a.length r.length with hlen | hlen
    · rw [stopOf_spec_max ha r hr hlen] at hpres
      cases hpres
    · exact pre_total_of_pre hr.1 haP.1 hlen

theorem missChain_mem {m : PendingNodeMap} {p a : FsPath} (h : stopOf m p = some a) :
    ∀ q, q ∈ missChain m p ↔ (SPre q p ∧ SPre a q) := by
  induction p using stopOf.induct m with
  | case1 => simp [stopOf] at h
  | case2 s rest par hpar =>
    rw [stopOf] at h
    simp only [par] at *
    rw [if_pos hpar] at h
    cases h
    intro q
    rw [missChain]
    simp only [if_pos hpar]
    constructor
    · intro hq
      cases hq
    · rintro ⟨hq1, hq2⟩
      rw [sPre_iff_dropLast (by simp)] at hq1
      have h1 := hq1.length_le
      have h2 := hq2.1.length_le
      have h3 : q.length < ((s :: rest).dropLast).length := by
        rcases Nat.lt_or_ge q.length ((s :: rest).dropLast).length with h | h
        · exact h
        · exact absurd (hq1.eq_of_length (Nat.le_antisymm h1 h)).symm hq2.2
      omega
  | case3 s rest par hpar ih =>
    rw [stopOf] at h
    simp only [par] at *
    rw [if_neg hpar] at h
    intro q
    rw [missChain]
    simp only [if_neg hpar]
    have hparP : SPre ((s :: rest).dropLast) (s :: rest) := by
      rw [sPre_iff_dropLast (by simp)]
    constructor
    · intro hq
      rcases List.mem_cons.mp hq with rfl | hmem
      · exact ⟨hparP, stopOf_spec_mem h |>.1⟩
      · obtain ⟨h1, h2⟩ := (ih h q).mp hmem
        exact ⟨sPre_of_pre_of_sPre h1.1 hparP, h2⟩
    · rintro ⟨hq1, hq2⟩
      rcases eq_or_ne q ((s :: rest).dropLast) with rfl | hne
      · exact List.mem_cons_self _ _
      · refine List.mem_cons_of_mem _ ((ih h q).mpr ⟨⟨?_, hne⟩, hq2⟩)
        rw [← sPre_iff_dropLast (by simp)]
        exact hq1

theorem stopOf_congr {m1 m2 : PendingNodeMap} {p : FsPath}
    (h : ∀ q, SPre q p → lk m1.nodes q = lk m2.nodes q) :
    stopOf m1 p = stopOf m2 p ∧ missChain m1 p = missChain m2 p := by
  induction p using stopOf.induct m1 with
  | case1 => simp [stopOf, missChain]
  | case2 s rest par hpar =>
    simp only [par] at *
    have hparP : SPre ((s :: rest).dropLast) (s :: rest) := by
      rw [sPre_iff_dropLast (by simp)]
    rw [stopOf, stopOf, missChain, missChain]
    rw [h _ hparP] at hpar ⊢
    simp [hpar]
  | case3 s rest par hpar ih =>
    simp only [par] at *
    have hparP : SPre ((s :: rest).dropLast) (s :: rest) := by
      rw [sPre_iff_dropLast (by simp)]
    have hih := ih fun q hq => h q (sPre_of_pre_of_sPre hq.1 hparP)
    rw [stopOf, stopOf, missChain, missChain]
    rw [h _ hparP] at hpar
    rw [h _ hparP]
    simp only [if_neg hpar]
    rw [hih.1, hih.2]
    exact ⟨rfl, rfl⟩

theorem take_eq_of_pre {q p : FsPath} (h : q <+: p) {k : Nat} (hk : k ≤ q.length) :
    q.take k = p.take k := by
  obtain ⟨t, rfl⟩ := h
  rw [List.take_append_of_le_length hk]

theorem stopOf_none_of_missing {m : PendingNodeMap} {p : FsPath}
    (h : ∀ q, SPre q p → lk m.nodes q = none) : stopOf m p = none := by
  cases ha : stopOf m p with
  | none => rfl
  | some a =>
    obtain ⟨h1, h2⟩ := stopOf_spec_mem ha
    rw [h a h1] at h2
    cases h2

theorem nfd_none_aux (N : Nat) :
    ∀ (m : PendingNodeMap) (p : FsPath), p.length ≤ N → stopOf m p = none →
      m.node_for_dir_of p = none := by
  induction N with
  | zero =>
    intro m p hlen _
    have : p = [] := List.eq_nil_of_length_eq_zero (Nat.le_zero.mp hlen)
    subst this
    rw [PendingNodeMap.node_for_dir_of]
  | succ n ih =>
    intro m p hlen hstop
    match p with
    | [] => rw [PendingNodeMap.node_for_dir_of]
    | s :: rest =>
      rw [stopOf] at hstop
      rw [PendingNodeMap.node_for_dir_of]
      by_cases hpar : (lk m.nodes ((s :: rest).dropLast)).isSome
      · rw [if_pos hpar] at hstop
        cases hstop
      · rw [if_neg hpar] at hstop ⊢
        have hcongr := @stopOf_congr
            { m with nodes := ((s :: rest).dropLast,
                PendingNode.dir (dirTitle ((s :: rest).dropLast)) []) :: m.nodes }
            m ((s :: rest).dropLast)
            (fun q hq => lk_cons_ne _ _ _ _ (fun he => hq.2 he.symm))
        have hrec := ih _ ((s :: rest).dropLast)
          (by simp [List.length_dropLast] at hlen ⊢; omega)
          (hcongr.1.trans hstop)
        rw [hrec]

theorem sPre_length_lt {a b : FsPath} (h : SPre a b) : a.length < b.length := by
  rcases Nat.lt_or_ge a.length b.length with h1 | h1
  · exact h1
  · exact absurd (h.1.eq_of_length (Nat.le_antisymm h.1.length_le h1)) h.2

theorem nfd_none {m : PendingNodeMap} {p : FsPath} (h : stopOf m p = none) :
    m.node_for_dir_of p = none :=
  nfd_none_aux p.length m p (Nat.le_refl _) h

theorem nfd_stop_file_aux (N : Nat) :
    ∀ (m : PendingNodeMap) (p a : FsPath) (i : Nat) (nm : String), p.length ≤ N →
      stopOf m p = some a → lk m.nodes a = some (PendingNode.file i nm) →
      m.node_for_dir_of p = none := by
  induction N with
  | zero =>
    intro m p a i nm hlen hstop _
    have hp : p = [] := List.eq_nil_of_length_eq_zero (Nat.le_zero.mp hlen)
    subst hp
    rw [stopOf] at hstop
    cases hstop
  | succ n ih =>
    intro m p a i nm hlen hstop hfile
    match p with
    | [] => rw [PendingNodeMap.node_for_dir_of]
    | s :: rest =>
      rw [stopOf] at hstop
      rw [PendingNodeMap.node_for_dir_of]
      by_cases hpar : (lk m.nodes ((s :: rest).dropLast)).isSome
      · rw [if_pos hpar] at hstop
        cases hstop
        rw [if_pos hpar]
        simp only [hfile]
      · rw [if_neg hpar] at hstop
        rw [if_neg hpar]
        have haP : SPre a ((s :: rest).dropLast) := (stopOf_spec_mem hstop).1
        have hcongr := @stopOf_congr
            { m with nodes := ((s :: rest).dropLast,
                PendingNode.dir (dirTitle ((s :: rest).dropLast)) []) :: m.nodes }
            m ((s :: rest).dropLast)
            (fun q hq => lk_cons_ne _ _ _ _ (fun he => hq.2 he.symm))
        have hfile1 : lk (((s :: rest).dropLast,
            PendingNode.dir (dirTitle ((s :: rest).dropLast)) []) :: m.nodes) a =
            some (PendingNode.file i nm) := by
          rw [lk_cons_ne _ _ _ _ (fun he => haP.2 he.symm)]
          exact hfile
        have hrec := ih _ ((s :: rest).dropLast) a i nm
          (by simp [List.length_dropLast] at hlen ⊢; omega)
          (hcongr.1.trans hstop) hfile1
        rw [hrec]

theorem nfd_spec_aux (N : Nat) :
    ∀ (m : PendingNodeMap) (p a : FsPath) (ta : String) (csa : List FsPath), p.length ≤ N →
      stopOf m p = some a → lk m.nodes a = some (PendingNode.dir ta csa) →
      ∃ m', m.node_for_dir_of p = some m' ∧ m'.roots = m.roots ∧
        lk m'.nodes a = some (PendingNode.dir ta (csa ++ [p.take (a.length + 1)])) ∧
        (∀ q ∈ missChain m p,
          lk m'.nodes q = some (PendingNode.dir (dirTitle q) [p.take (q.length + 1)])) ∧
        (∀ x, x ≠ a → x ∉ missChain m p → lk m'.nodes x = lk m.nodes x) := by
  induction N with
  | zero =>
    intro m p a ta csa hlen hstop _
    have hp : p = [] := List.eq_nil_of_length_eq_zero (Nat.le_zero.mp hlen)
    subst hp
    rw [stopOf] at hstop
    cases hstop
  | succ n ih =>
    intro m p a ta csa hlen hstop hdir
    match p with
    | [] =>
      rw [stopOf] at hstop
      cases hstop
    | s :: rest =>
      rw [stopOf] at hstop
      rw [PendingNodeMap.node_for_dir_of]
      rw [missChain]
      by_cases hpar : (lk m.nodes ((s :: rest).dropLast)).isSome
      · rw [if_pos hpar] at hstop
        cases hstop
        rw [if_pos hpar, if_pos hpar]
        have htake : (s :: rest).take (((s :: rest).dropLast).length + 1) = s :: rest := by
          rw [List.length_dropLast, List.length_cons]
          simp [List.take_of_length_le]
        refine ⟨{ m with nodes := ((s :: rest).dropLast,
            PendingNode.dir ta (csa ++ [s :: rest])) :: m.nodes },
          by simp only [hdir], rfl, ?_, ?_, ?_⟩
        · rw [htake]
          exact lk_cons_self _ _ _
        · intro q hq
          cases hq
        · intro x hxa _
          exact lk_cons_ne _ _ _ _ (fun he => hxa he.symm)
      · rw [if_neg hpar] at hstop
        rw [if_neg hpar, if_neg hpar]
        have haP : SPre a ((s :: rest).dropLast) := (stopOf_spec_mem hstop).1
        have hane : ((s :: rest).dropLast) ≠ a := fun he => haP.2 he.symm
        have hcongr := @stopOf_congr
            { m with nodes := ((s :: rest).dropLast,
                PendingNode.dir (dirTitle ((s :: rest).dropLast)) []) :: m.nodes }
            m ((s :: rest).dropLast)
            (fun q hq => lk_cons_ne _ _ _ _ (fun he => hq.2 he.symm))
        have hstop1 := hcongr.1.trans hstop
        have hdir1 : lk (((s :: rest).dropLast,
            PendingNode.dir (dirTitle ((s :: rest).dropLast)) []) :: m.nodes) a =
            some (PendingNode.dir ta csa) := by
          rw [lk_cons_ne _ _ _ _ hane]
          exact hdir
        obtain ⟨m2, hm2eq, hroots2, hm2a, hm2chain, hm2other⟩ := ih _ ((s :: rest).dropLast) a ta csa
          (by simp [List.length_dropLast] at hlen ⊢; omega) hstop1 hdir1
        have hparNotChain : ((s :: rest).dropLast) ∉ missChain
            { m with nodes := ((s :: rest).dropLast,
                PendingNode.dir (dirTitle ((s :: rest).dropLast)) []) :: m.nodes }
            ((s :: rest).dropLast) := by
          intro hmem
          exact ((missChain_mem hstop1 _).mp hmem).1.2 rfl
        have hm2par : lk m2.nodes ((s :: rest).dropLast) =
            some (PendingNode.dir (dirTitle ((s :: rest).dropLast)) []) := by
          rw [hm2other _ hane hparNotChain]
          exact lk_cons_self _ _ _
        rw [hm2eq]
        have hdropPre : ((s :: rest).dropLast) <+: (s :: rest) := List.dropLast_prefix _
        have htakeAll : (s :: rest).take (((s :: rest).dropLast).length + 1) = s :: rest := by
          rw [List.length_dropLast, List.length_cons]
          simp [List.take_of_length_le]
        refine ⟨{ m2 with nodes := ((s :: rest).dropLast,
            PendingNode.dir (dirTitle ((s :: rest).dropLast)) ([] ++ [s :: rest])) :: m2.nodes },
          by simp only [hm2par], by simp [hroots2], ?_, ?_, ?_⟩
        · rw [lk_cons_ne _ _ _ _ hane, hm2a,
            take_eq_of_pre hdropPre (sPre_length_lt haP)]
        · intro q hq
          rcases List.mem_cons.mp hq with rfl | hmem
          · rw [htakeAll, lk_cons_self]
            simp
          · have hqP : SPre q ((s :: rest).dropLast) :=
              ((missChain_mem hstop q).mp hmem).1
            have hqchain1 : q ∈ missChain
                { m with nodes := ((s :: rest).dropLast,
                    PendingNode.dir (dirTitle ((s :: rest).dropLast)) []) :: m.nodes }
                ((s :: rest).dropLast) := by
              rw [hcongr.2]
              exact hmem
            rw [lk_cons_ne _ _ _ _ (fun he => hqP.2 he.symm), hm2chain q hqchain1,
              take_eq_of_pre hdropPre (sPre_length_lt hqP)]
        · intro x hxa hxchain
          have hxpar : x ≠ ((s :: rest).dropLast) := fun he => hxchain (by rw [he]; exact List.mem_cons_self _ _)
          have hxchain1 : x ∉ missChain
              { m with nodes := ((s :: rest).dropLast,
                  PendingNode.dir (dirTitle ((s :: rest).dropLast)) []) :: m.nodes }
              ((s :: rest).dropLast) := by
            rw [hcongr.2]
            intro hmem
            exact hxchain (List.mem_cons_of_mem _ hmem)
          rw [lk_cons_ne _ _ _ _ (fun he => hxpar he.symm), hm2other x hxa hxchain1,
            lk_cons_ne _ _ _ _ (fun he => hxpar he.symm)]

/-- The base name stored in a leaf staging node (total on nonempty paths). -/
def leafName (p : FsPath) : String := (p.getLast?).getD ""

theorem stopOf_ne_nil {m : PendingNodeMap} {p a : FsPath} (h : stopOf m p = some a) :
    p ≠ [] := by
  intro hp
  subst hp
  rw [stopOf] at h
  cases h

theorem push_file_spec (i : Nat) {m : PendingNodeMap} {p a : FsPath} (h : stopOf m p = some a)
    {ta : String} {csa : List FsPath} (ha : lk m.nodes a = some (PendingNode.dir ta csa)) :
    ∃ m', m.push_file p i = some m' ∧ m'.roots = m.roots ∧
      lk m'.nodes p = some (PendingNode.file i (leafName p)) ∧
      lk m'.nodes a = some (PendingNode.dir ta (csa ++ [p.take (a.length + 1)])) ∧
      (∀ q ∈ missChain m p,
        lk m'.nodes q = some (PendingNode.dir (dirTitle q) [p.take (q.length + 1)])) ∧
      (∀ x, x ≠ p → x ≠ a → x ∉ missChain m p → lk m'.nodes x = lk m.nodes x) := by
  obtain ⟨m2, hm2eq, hroots2, hm2a, hm2chain, hm2other⟩ :=
    nfd_spec_aux p.length m p a ta csa (Nat.le_refl _) h ha
  have hpnil : p ≠ [] := stopOf_ne_nil h
  have hlast : p.getLast? = some (leafName p) := by
    cases hl : p.getLast? with
    | none => exact absurd (List.getLast?_eq_none_iff.mp hl) hpnil
    | some x => rw [leafName, hl]; rfl
  have hap : SPre a p := (stopOf_spec_mem h).1
  refine ⟨{ m2 with nodes := (p, PendingNode.file i (leafName p)) :: m2.nodes }, ?_, hroots2, ?_, ?_, ?_, ?_⟩
  · rw [PendingNodeMap.push_file, hm2eq, hlast]
  · exact lk_cons_self _ _ _
  · rw [lk_cons_ne _ _ _ _ (fun he => hap.2 he.symm)]
    exact hm2a
  · intro q hq
    have hqP : SPre q p := ((missChain_mem h q).mp hq).1
    rw [lk_cons_ne _ _ _ _ (fun he => hqP.2 he.symm)]
    exact hm2chain q hq
  · intro x hxp hxa hxc
    rw [lk_cons_ne _ _ _ _ (fun he => hxp he.symm)]
    exact hm2other x hxa hxc

/-- A successful `push_file` presupposes a directory stop key. -/
theorem push_file_success {m m' : PendingNodeMap} {p : FsPath} {i : Nat}
    (h : m.push_file p i = some m') :
    ∃ a ta csa, stopOf m p = some a ∧ lk m.nodes a = some (PendingNode.dir ta csa) := by
  cases hs : stopOf m p with
  | none =>
    rw [PendingNodeMap.push_file, nfd_none hs] at h
    cases h
  | some a =>
    cases hl : lk m.nodes a with
    | none =>
      have := (stopOf_spec_mem hs).2
      rw [hl] at this
      cases this
    | some nd =>
      cases nd with
      | dir ta csa => exact ⟨a, ta, csa, rfl, hl⟩
      | file j nm =>
        rw [PendingNodeMap.push_file, nfd_stop_file_aux p.length m p a j nm (Nat.le_refl _) hs hl] at h
        cases h

theorem push_file_roots {m m' : PendingNodeMap} {p : FsPath} {i : Nat}
    (h : m.push_file p i = some m') : m'.roots = m.roots := by
  obtain ⟨a, ta, csa, hs, hl⟩ := push_file_success h
  obtain ⟨m'', heq, hroots, _⟩ := push_file_spec i hs hl
  rw [heq] at h
  cases h
  exact hroots

/-- Every key of a reachable staging map lies under a configured root. -/
def KeysUnder (m : PendingNodeMap) : Prop :=
  ∀ q, (lk m.nodes q).isSome → ∃ r ∈ m.roots, r <+: q

theorem lk_new_aux (g : FsPath → PendingNode) (roots : List FsPath) :
    ∀ init q, lk (roots.foldl (fun ns r => (r, g r) :: ns) init) q =
      if q ∈ roots then some (g q) else lk init q := by
  induction roots with
  | nil => intro init q; simp
  | cons r rs ih =>
    intro init q
    rw [List.foldl_cons, ih]
    by_cases hq : q ∈ rs
    · simp [hq]
    · by_cases hr : r = q
      · subst hr
        simp [hq, lk_cons_self]
      · simp [hq, hr, lk_cons_ne _ _ _ _ hr, Ne.symm hr]

theorem lk_new (roots : List FsPath) (q : FsPath) :
    lk (PendingNodeMap.new roots).nodes q =
      if q ∈ roots then some (PendingNode.dir (rootTitle q) []) else none := by
  rw [PendingNodeMap.new]
  exact lk_new_aux _ roots [] q

theorem keysUnder_new (roots : List FsPath) : KeysUnder (PendingNodeMap.new roots) := by
  intro q hq
  rw [lk_new] at hq
  by_cases h : q ∈ roots
  · exact ⟨q, h, List.prefix_refl q⟩
  · rw [if_neg h] at hq
    cases hq

theorem keysUnder_push {m m' : PendingNodeMap} {p : FsPath} {i : Nat}
    (hku : KeysUnder m) (h : m.push_file p i = some m') : KeysUnder m' := by
  obtain ⟨a, ta, csa, hs, hl⟩ := push_file_success h
  obtain ⟨m'', heq, hroots, hfp, hfa, hfc, hfo⟩ := push_file_spec i hs hl
  rw [heq] at h
  cases h
  have hap : SPre a p := (stopOf_spec_mem hs).1
  obtain ⟨r, hr, hra⟩ := hku a (by rw [hl]; rfl)
  intro q hq
  rw [hroots]
  by_cases hqp : q = p
  · exact ⟨r, hr, hqp ▸ hra.trans hap.1⟩
  · by_cases hqa : q = a
    · exact ⟨r, hr, hqa ▸ hra⟩
    · by_cases hqc : q ∈ missChain m p
      · have hq2 := ((missChain_mem hs q).mp hqc).2
        exact ⟨r, hr, hra.trans hq2.1⟩
      · rw [hfo q hqp hqa hqc] at hq
        exact hku q hq

theorem keysUnder_pushFiles :
    ∀ (files : List FsPath) (i : Nat) (m m' : PendingNodeMap), KeysUnder m →
      pushFiles m files i = some m' → KeysUnder m' := by
  intro files
  induction files with
  | nil =>
    intro i m m' hku h
    rw [pushFiles] at h
    cases h
    exact hku
  | cons f fs ih =>
    intro i m m' hku h
    rw [pushFiles] at h
    cases hp : m.push_file f i with
    | none => rw [hp] at h; cases h
    | some m1 =>
      rw [hp] at h
      exact ih _ _ _ (keysUnder_push hku hp) h

/-- The roots list is never modified during the discovery phase. -/
theorem pushFiles_roots :
    ∀ (files : List FsPath) (i : Nat) (m m' : PendingNodeMap),
      pushFiles m files i = some m' → m'.roots = m.roots := by
  intro files
  induction files with
  | nil =>
    intro i m m' h
    rw [pushFiles] at h
    cases h
    rfl
  | cons f fs ih =>
    intro i m m' h
    rw [pushFiles] at h
    cases hp : m.push_file f i with
    | none => rw [hp] at h; cases h
    | some m1 =>
      rw [hp] at h
      rw [ih _ _ _ h, push_file_roots hp]

/-- C9: in any staging map reached by registering files from the configured
roots, calling `push_file` on a path nested under no configured root aborts
(returns `none`, the model of the ancestor-resolution panic) instead of
completing. -/
theorem push_file_outside_root_aborts
    (roots : List FsPath) (files : List FsPath) (m : PendingNodeMap)
    (hrun : pushFiles (PendingNodeMap.new roots) files 0 = some m)
    (p : FsPath) (hout : ∀ r ∈ roots, ¬ r <+: p) (i : Nat) :
    m.push_file p i = none := by
  have hroots : m.roots = roots := pushFiles_roots files 0 _ m hrun
  have hku : KeysUnder m := keysUnder_pushFiles files 0 _ m (keysUnder_new roots) hrun
  have hmiss : ∀ q, SPre q p → lk m.nodes q = none := by
    intro q hq
    cases hl : lk m.nodes q with
    | none => rfl
    | some nd =>
      obtain ⟨r, hr, hrq⟩ := hku q (by rw [hl]; rfl)
      rw [hroots] at hr
      exact absurd (hrq.trans hq.1) (hout r hr)
  rw [PendingNodeMap.push_file, nfd_none (stopOf_none_of_missing hmiss)]

/-- Witness for C9: a run with root `/a` and no files, then a push of
`/b/x.mkv`, which is under no root; the push aborts. -/
theorem push_file_outside_root_aborts_witness :
    (∀ r ∈ [["a"]], ¬ r <+: (["b", "x.mkv"] : FsPath)) ∧
      (PendingNodeMap.new [["a"]]).push_file ["b", "x.mkv"] 0 = none :=
  ⟨by decide, push_file_outside_root_aborts [["a"]] [] _ rfl ["b", "x.mkv"] (by decide) 0⟩

/-! ## The staging-map invariant over a discovery run -/

theorem dropLast_take_succ {α : Type} {k : Nat} {l : List α} (h : k + 1 ≤ l.length) :
    (l.take (k + 1)).dropLast = l.take k := by
  rcases Nat.lt_or_ge (k + 1) l.length with h1 | h1
  · rw [List.dropLast_take h1]
    simp
  · have hlen : l.length = k + 1 := Nat.le_antisymm h1 h
    rw [List.take_of_length_le (by omega), List.dropLast_eq_take, hlen]
    simp

theorem pre_take {q p : FsPath} (h : q <+: p) : p.take q.length = q :=
  (List.prefix_iff_eq_take.mp h).symm

theorem pre_unique_length {q q' p : FsPath} (hq : q <+: p) (hq' : q' <+: p)
    (hlen : q.length = q'.length) : q = q' := by
  rw [← pre_take hq, ← pre_take hq', hlen]

/-- Well-formedness of a discovery run: pairwise distinct roots; file paths
pairwise distinct and never nested below one another; no file path is (a
prefix of) a root; every file strictly below some root.  These hold of any
actual filesystem walk that registers each accepted path exactly once. -/
def SaneRun (roots files : List FsPath) : Prop :=
  roots.Nodup ∧ files.Nodup ∧
  (∀ f ∈ files, ∀ g ∈ files, f ≠ g → ¬ f <+: g) ∧
  (∀ f ∈ files, ∀ r ∈ roots, ¬ f <+: r) ∧
  (∀ f ∈ files, ∃ r ∈ roots, SPre r f)

instance (roots files : List FsPath) : Decidable (SaneRun roots files) := by
  unfold SaneRun
  infer_instance

/-- `q` is a directory created on demand while registering `f` (or an earlier
file sharing the ancestor): a proper prefix of `f` strictly below every root
that could have stopped the ancestor recursion. -/
def NewVia (roots : List FsPath) (f q : FsPath) : Prop :=
  SPre q f ∧ ∀ r ∈ roots, r <+: f → SPre r q

/-- `q` is an on-demand directory key after registering `files`. -/
def IsCreatedDir (roots files : List FsPath) (q : FsPath) : Prop :=
  ∃ f ∈ files, NewVia roots f q

instance (roots : List FsPath) (f q : FsPath) : Decidable (NewVia roots f q) := by
  unfold NewVia
  infer_instance

instance (roots files : List FsPath) (q : FsPath) : Decidable (IsCreatedDir roots files q) := by
  unfold IsCreatedDir
  infer_instance

/-- `c` is registered as a child path of `q` after registering `files`. -/
def IsChild (roots files : List FsPath) (q c : FsPath) : Prop :=
  c.dropLast = q ∧ (c ∈ files ∨ IsCreatedDir roots files c) ∧ c ∉ roots

theorem isCreatedDir_append {roots done : List FsPath} {f q : FsPath} :
    IsCreatedDir roots (done ++ [f]) q ↔ IsCreatedDir roots done q ∨ NewVia roots f q := by
  unfold IsCreatedDir
  simp [List.mem_append]
  constructor
  · rintro ⟨g, hg | rfl, hvia⟩
    · exact Or.inl ⟨g, hg, hvia⟩
    · exact Or.inr hvia
  · rintro (⟨g, hg, hvia⟩ | hvia)
    · exact ⟨g, Or.inl hg, hvia⟩
    · exact ⟨f, Or.inr rfl, hvia⟩

theorem isCreatedDir_mono {roots done : List FsPath} {f q : FsPath}
    (h : IsCreatedDir roots done q) : IsCreatedDir roots (done ++ [f]) q :=
  isCreatedDir_append.mpr (Or.inl h)

theorem isChild_mono {roots done : List FsPath} {f q c : FsPath}
    (h : IsChild roots done q c) : IsChild roots (done ++ [f]) q c := by
  obtain ⟨h1, h2, h3⟩ := h
  refine ⟨h1, ?_, h3⟩
  rcases h2 with h2 | h2
  · exact Or.inl (List.mem_append_left _ h2)
  · exact Or.inr (isCreatedDir_mono h2)

/-- The invariant characterizing the staging map after registering the paths
of `files` (in order, indices by position) below the pre-registered `roots`:
each file path holds its leaf node; each root and each on-demand directory
holds a directory node whose registered children are exactly the keys one
level below it; nothing else is in the map. -/
def MapInv (roots files : List FsPath) (m : PendingNodeMap) : Prop :=
  m.roots = roots ∧
  (∀ i f, files[i]? = some f → lk m.nodes f = some (PendingNode.file i (leafName f))) ∧
  (∀ q ∈ roots, ∃ cs, lk m.nodes q = some (PendingNode.dir (rootTitle q) cs) ∧
      cs.Nodup ∧ ∀ c, c ∈ cs ↔ IsChild roots files q c) ∧
  (∀ q, q ∉ roots → IsCreatedDir roots files q → ∃ cs,
      lk m.nodes q = some (PendingNode.dir (dirTitle q) cs) ∧
      cs.Nodup ∧ ∀ c, c ∈ cs ↔ IsChild roots files q c) ∧
  (∀ q, q ∉ files → q ∉ roots → ¬ IsCreatedDir roots files q → lk m.nodes q = none)

theorem mapInv_present {roots files : List FsPath} {m : PendingNodeMap}
    (hinv : MapInv roots files m) (q : FsPath) :
    (lk m.nodes q).isSome ↔ (q ∈ files ∨ q ∈ roots ∨ IsCreatedDir roots files q) := by
  obtain ⟨_, hfile, hroot, hdir, hnone⟩ := hinv
  constructor
  · intro hq
    by_contra hc
    push_neg at hc
    rw [hnone q hc.1 hc.2.1 hc.2.2] at hq
    cases hq
  · rintro (hq | hq | hq)
    · obtain ⟨i, hi⟩ := List.getElem?_of_mem hq
      rw [hfile i q hi]
      rfl
    · obtain ⟨cs, hcs, _⟩ := hroot q hq
      rw [hcs]
      rfl
    · by_cases hr : q ∈ roots
      · obtain ⟨cs, hcs, _⟩ := hroot q hr
        rw [hcs]
        rfl
      · obtain ⟨cs, hcs, _⟩ := hdir q hr hq
        rw [hcs]
        rfl

theorem mapInv_init (roots : List FsPath) : MapInv roots [] (PendingNodeMap.new roots) := by
  refine ⟨rfl, ?_, ?_, ?_, ?_⟩
  · intro i f hi
    simp at hi
  · intro q hq
    refine ⟨[], ?_, List.nodup_nil, ?_⟩
    · rw [lk_new, if_pos hq]
    · intro c
      simp only [List.not_mem_nil, false_iff]
      rintro ⟨_, hc | hc, _⟩
      · simp at hc
      · obtain ⟨f, hf, _⟩ := hc
        simp at hf
  · intro q _ hq
    obtain ⟨f, hf, _⟩ := hq
    simp at hf
  · intro q _ hq _
    rw [lk_new, if_neg hq]

theorem mapInv_push {roots files : List FsPath} (hs : SaneRun roots files)
    {done : List FsPath} {f : FsPath} {rest : List FsPath}
    (hsplit : files = done ++ f :: rest)
    {m : PendingNodeMap} (hinv : MapInv roots done m) :
    ∃ m', m.push_file f done.length = some m' ∧ MapInv roots (done ++ [f]) m' := by
  obtain ⟨hrN, hfN, hPP, hPR, hUR⟩ := hs
  have hpres := mapInv_present hinv
  obtain ⟨hroots, hfileInv, hrootInv, hdirInv, hnoneInv⟩ := hinv
  have hfmem : f ∈ files := by
    rw [hsplit]
    exact List.mem_append_right _ (List.mem_cons_self _ _)
  have hdsub : ∀ g ∈ done, g ∈ files := fun g hg => by
    rw [hsplit]
    exact List.mem_append_left _ hg
  have hfnotdone : f ∉ done := by
    intro hc
    rw [hsplit] at hfN
    exact List.disjoint_of_nodup_append hfN hc (List.mem_cons_self _ _)
  have hnotpre_df : ∀ g ∈ done, ¬ g <+: f ∧ ¬ f <+: g := by
    intro g hg
    have hgf : g ≠ f := fun he => hfnotdone (he ▸ hg)
    exact ⟨hPP g (hdsub g hg) f hfmem hgf, hPP f hfmem g (hdsub g hg) hgf.symm⟩
  have hfnotroot : f ∉ roots := fun hc => hPR f hfmem f hc (List.prefix_refl f)
  obtain ⟨r0, hr0, hr0f⟩ := hUR f hfmem
  have hfne : f ≠ [] := by
    intro h
    subst h
    have := sPre_length_lt hr0f
    simp at this
  -- the ancestor recursion stops at a directory key `a`
  obtain ⟨cs0, hcs0, _⟩ := hrootInv r0 hr0
  obtain ⟨a, hstop, hr0a⟩ := stopOf_isSome_of_present hr0f (by rw [hcs0]; rfl)
  have haf : SPre a f := (stopOf_spec_mem hstop).1
  have hapres : (lk m.nodes a).isSome := (stopOf_spec_mem hstop).2
  have hamax : ∀ q, SPre q f → a.length < q.length → lk m.nodes q = none :=
    stopOf_spec_max hstop
  have hpre_le : ∀ q, SPre q f → (lk m.nodes q).isSome → q <+: a := by
    intro q hq hqp
    rcases Nat.lt_or_ge a.length q.length with h | h
    · rw [hamax q hq h] at hqp
      cases hqp
    · exact pre_total_of_pre hq.1 haf.1 h
  have hadone : a ∉ done := fun hc => (hnotpre_df a hc).1 haf.1
  have haCls : a ∈ roots ∨ IsCreatedDir roots done a := by
    rcases (hpres a).mp hapres with h | h | h
    · exact absurd h hadone
    · exact Or.inl h
    · exact Or.inr h
  obtain ⟨csa, hlka, hcsaN, hcsaMem⟩ : ∃ csa,
      lk m.nodes a = some (PendingNode.dir
        (if a ∈ roots then rootTitle a else dirTitle a) csa) ∧
      csa.Nodup ∧ (∀ c, c ∈ csa ↔ IsChild roots done a c) := by
    by_cases hra : a ∈ roots
    · obtain ⟨cs, h1, h2, h3⟩ := hrootInv a hra
      rw [if_pos hra]
      exact ⟨cs, h1, h2, h3⟩
    · rcases haCls with h | h
      · exact absurd h hra
      · obtain ⟨cs, h1, h2, h3⟩ := hdirInv a hra h
        rw [if_neg hra]
        exact ⟨cs, h1, h2, h3⟩
  -- facts about root prefixes of f
  have hrootpre_a : ∀ r ∈ roots, r <+: f → r <+: a := by
    intro r hr hrf
    have hrf' : SPre r f := ⟨hrf, fun he => hfnotroot (he ▸ hr)⟩
    obtain ⟨cs, h1, _⟩ := hrootInv r hr
    exact hpre_le r hrf' (by rw [h1]; rfl)
  -- the missing chain is exactly the new on-demand directories
  have hchainNV : ∀ q, q ∈ missChain m f ↔ (NewVia roots f q ∧ a.length < q.length) := by
    intro q
    rw [missChain_mem hstop]
    constructor
    · rintro ⟨hqf, haq⟩
      refine ⟨⟨hqf, ?_⟩, sPre_length_lt haq⟩
      intro r hr hrf
      exact sPre_of_pre_of_sPre (hrootpre_a r hr hrf) haq
    · rintro ⟨⟨hqf, _⟩, hlen⟩
      refine ⟨hqf, pre_total_of_pre haf.1 hqf.1 (by omega), ?_⟩
      intro he
      rw [he] at hlen
      omega
  have hNVshort : ∀ q, NewVia roots f q → q.length ≤ a.length →
      IsCreatedDir roots done q := by
    intro q hq hlen
    have hqa : q <+: a := pre_total_of_pre hq.1.1 haf.1 hlen
    rcases haCls with hroot | hcre
    · have h1 := sPre_length_lt (hq.2 a hroot haf.1)
      omega
    · obtain ⟨g, hg, hga⟩ := hcre
      refine ⟨g, hg, ⟨hqa.trans hga.1.1, ?_⟩, ?_⟩
      · rintro rfl
        exact hga.1.2 (hqa.eq_of_length
          (Nat.le_antisymm hqa.length_le hga.1.1.length_le)).symm
      · intro r hr hrg
        have hra : SPre r a := hga.2 r hr hrg
        have hrf : r <+: f := hra.1.trans haf.1
        rcases List.prefix_or_prefix_of_prefix hra.1 hqa with hrq | hqr
        · refine ⟨hrq, ?_⟩
          rintro rfl
          exact (hq.2 r hr hrf).2 rfl
        · have h1 := hq.2 r hr hrf
          exact absurd (h1.1.eq_of_length
            (Nat.le_antisymm h1.1.length_le hqr.length_le)) h1.2
  have hkey_ne_nil : ∀ c, (c ∈ done ∨ IsCreatedDir roots done c) → c ≠ [] := by
    intro c hc
    rcases hc with hc | ⟨g, hg, hvia⟩
    · obtain ⟨r, _, hrc⟩ := hUR c (hdsub c hc)
      intro h
      rw [h] at hrc
      have := sPre_length_lt hrc
      simp at this
    · obtain ⟨r, hr, hrg⟩ := hUR g (hdsub g hg)
      intro h
      rw [h] at hvia
      obtain ⟨h1, h2⟩ := hvia.2 r hr hrg.1
      exact h2 (List.prefix_nil.mp h1)
  have hsub_parent : ∀ (r c : FsPath), r <+: c → r.length < c.length → r <+: c.dropLast := by
    intro r c h1 h2
    rw [List.dropLast_eq_take, List.prefix_take_iff]
    exact ⟨h1, by omega⟩
  have hparent_key : ∀ c, (c ∈ done ∨ IsCreatedDir roots done c) → c ∉ roots →
      c.dropLast ∈ roots ∨ IsCreatedDir roots done c.dropLast := by
    intro c hc hcr
    have hcnil : c ≠ [] := hkey_ne_nil c hc
    have hyc : SPre c.dropLast c := (sPre_iff_dropLast hcnil).mpr (List.prefix_refl _)
    by_cases hy : c.dropLast ∈ roots
    · exact Or.inl hy
    · right
      rcases hc with hcd | ⟨g, hg, hvia⟩
      · refine ⟨c, hcd, hyc, ?_⟩
        intro r hr hrc
        have hrne : r ≠ c := by
          rintro rfl
          exact hPR r (hdsub r hcd) r hr (List.prefix_refl r)
        have hrlen : r.length < c.length := sPre_length_lt ⟨hrc, hrne⟩
        refine ⟨hsub_parent r c hrc hrlen, ?_⟩
        rintro rfl
        exact hy hr
      · refine ⟨g, hg, ⟨hyc.1.trans hvia.1.1, ?_⟩, ?_⟩
        · rintro rfl
          exact hvia.1.2 ((hyc.1.eq_of_length
            (Nat.le_antisymm hyc.1.length_le hvia.1.1.length_le)).symm)
        · intro r hr hrg
          have hrc : SPre r c := hvia.2 r hr hrg
          have hrlen : r.length < c.length := sPre_length_lt hrc
          refine ⟨hsub_parent r c hrc.1 hrlen, ?_⟩
          rintro rfl
          exact hy hr
  have hchild_present : ∀ q c, IsChild roots done q c → (lk m.nodes c).isSome := by
    rintro q c ⟨_, hc, hcr⟩
    rcases hc with hc | hc
    · obtain ⟨i, hi⟩ := List.getElem?_of_mem hc
      rw [hfileInv i c hi]
      rfl
    · obtain ⟨cs, h1, _⟩ := hdirInv c hcr hc
      rw [h1]
      rfl
  have hfnotcreated : ¬ IsCreatedDir roots done f := by
    rintro ⟨g, hg, hvia⟩
    exact (hnotpre_df g hg).2 hvia.1.1
  -- the new child of the stop key
  have halen : a.length < f.length := sPre_length_lt haf
  have hcq_pre : f.take (a.length + 1) <+: f := List.take_prefix _ _
  have hcq_len : (f.take (a.length + 1)).length = a.length + 1 := by
    rw [List.length_take]
    omega
  have hcq_drop : (f.take (a.length + 1)).dropLast = a := by
    rw [dropLast_take_succ (by omega), pre_take haf.1]
  have hcq_notroot : f.take (a.length + 1) ∉ roots := by
    intro hc
    by_cases hfq : f.take (a.length + 1) = f
    · exact hfnotroot (hfq ▸ hc)
    · have h1 : lk m.nodes (f.take (a.length + 1)) = none :=
        hamax _ ⟨hcq_pre, hfq⟩ (by omega)
      have h2 := (hpres _).mpr (Or.inr (Or.inl hc))
      rw [h1] at h2
      cases h2
  have hcq_mem' : (f.take (a.length + 1)) ∈ (done ++ [f]) ∨
      IsCreatedDir roots (done ++ [f]) (f.take (a.length + 1)) := by
    by_cases hfq : f.take (a.length + 1) = f
    · exact Or.inl (by rw [hfq]; exact List.mem_append_right _ (List.mem_singleton.mpr rfl))
    · refine Or.inr (isCreatedDir_append.mpr (Or.inr ⟨⟨hcq_pre, hfq⟩, ?_⟩))
      intro r hr hrf
      have hra := hrootpre_a r hr hrf
      have hacq : a <+: f.take (a.length + 1) := by
        have h := List.dropLast_prefix (f.take (a.length + 1))
        rw [hcq_drop] at h
        exact h
      refine ⟨hra.trans hacq, ?_⟩
      rintro rfl
      have := hra.length_le
      rw [hcq_len] at this
      omega
  have hmem_a : ∀ c, c ∈ csa ++ [f.take (a.length + 1)] ↔
      IsChild roots (done ++ [f]) a c := by
    intro c
    rw [List.mem_append, List.mem_singleton, hcsaMem c]
    constructor
    · rintro (hc | rfl)
      · exact isChild_mono hc
      · exact ⟨hcq_drop, hcq_mem', hcq_notroot⟩
    · rintro ⟨hdrop, hmem, hcroots⟩
      rcases hmem with hmem | hmem
      · rcases List.mem_append.mp hmem with hcd | hcf
        · exact Or.inl ⟨hdrop, Or.inl hcd, hcroots⟩
        · right
          have hcf' : c = f := List.mem_singleton.mp hcf
          have hpc : c <+: f := by
            rw [hcf']
          have hlen : c.length = a.length + 1 := by
            have h1 := List.length_dropLast c
            rw [hdrop] at h1
            have h2 : 0 < c.length := List.length_pos.mpr (by rw [hcf']; exact hfne)
            omega
          rw [← hlen, pre_take hpc]
      · rcases isCreatedDir_append.mp hmem with hcd | hNV
        · exact Or.inl ⟨hdrop, Or.inr hcd, hcroots⟩
        · right
          have hcne : c ≠ [] := by
            rintro rfl
            obtain ⟨h1, h2⟩ := hNV.2 r0 hr0 hr0f.1
            exact h2 (List.prefix_nil.mp h1)
          have hlen : c.length = a.length + 1 := by
            have h1 := List.length_dropLast c
            rw [hdrop] at h1
            have h2 : 0 < c.length := List.length_pos.mpr hcne
            omega
          rw [← hlen, pre_take hNV.1.1]
  have hnodup_a : (csa ++ [f.take (a.length + 1)]).Nodup := by
    rw [List.nodup_append]
    refine ⟨hcsaN, List.nodup_singleton _, ?_⟩
    intro c hc1 hc2
    rw [List.mem_singleton] at hc2
    have hpresC := hchild_present a c ((hcsaMem c).mp hc1)
    by_cases hfq : c = f
    · rcases (hpres c).mp hpresC with h | h | h
      · exact hfnotdone (hfq ▸ h)
      · exact hfnotroot (hfq ▸ h)
      · exact hfnotcreated (hfq ▸ h)
    · have hcpre : c <+: f := by
        rw [hc2]
        exact hcq_pre
      have hclen : a.length < c.length := by
        rw [hc2, hcq_len]
        omega
      rw [hamax c ⟨hcpre, hfq⟩ hclen] at hpresC
      cases hpresC
  have hstable : ∀ q, (lk m.nodes q).isSome → q ≠ a →
      ∀ c, IsChild roots (done ++ [f]) q c ↔ IsChild roots done q c := by
    intro q hqpres hqa c
    constructor
    · rintro ⟨hdrop, hmem, hcr⟩
      refine ⟨hdrop, ?_, hcr⟩
      rcases hmem with hmem | hmem
      · rcases List.mem_append.mp hmem with h | h
        · exact Or.inl h
        · exfalso
          have hcf : c = f := List.mem_singleton.mp h
          subst hcf
          have hqf : SPre c.dropLast c := (sPre_iff_dropLast hfne).mpr (List.prefix_refl _)
          rw [hdrop] at hqf
          have hq1 : q <+: a := hpre_le q hqf hqpres
          have hq2 : a.length ≤ q.length := by
            have h1 := sPre_length_lt haf
            have h2 : q.length = c.length - 1 := by
              rw [← hdrop, List.length_dropLast]
            have h3 := sPre_length_lt hqf
            omega
          exact hqa (hq1.eq_of_length (Nat.le_antisymm hq1.length_le hq2))
      · rcases isCreatedDir_append.mp hmem with h | h
        · exact Or.inr h
        · rcases le_or_lt c.length a.length with hle | hgt
          · exact Or.inr (hNVshort c h hle)
          · exfalso
            have hcf : SPre c f := h.1
            have hcne : c ≠ [] := by
              rintro rfl
              simp at hgt
            have hqlen : q.length = c.length - 1 := by
              rw [← hdrop, List.length_dropLast]
            have hqf : SPre q f := by
              rw [← hdrop]
              exact sPre_of_pre_of_sPre (List.dropLast_prefix c) hcf
            have hqa' : q <+: a := hpre_le q hqf hqpres
            have h5 := hqa'.length_le
            have h6 : 0 < c.length := List.length_pos.mpr hcne
            have : q = a := pre_unique_length hqf.1 haf.1 (by omega)
            exact hqa this
    · intro h
      exact isChild_mono h
  have hmem_chain : ∀ q, q ∈ missChain m f →
      ∀ c, c ∈ [f.take (q.length + 1)] ↔ IsChild roots (done ++ [f]) q c := by
    intro q hq c
    obtain ⟨hqNV, hqlen⟩ := (hchainNV q).mp hq
    have hqf : SPre q f := hqNV.1
    have hqmiss : lk m.nodes q = none := hamax q hqf hqlen
    have hqlen_f : q.length < f.length := sPre_length_lt hqf
    rw [List.mem_singleton]
    constructor
    · rintro rfl
      refine ⟨?_, ?_, ?_⟩
      · rw [dropLast_take_succ (by omega), pre_take hqf.1]
      · by_cases hfq : f.take (q.length + 1) = f
        · rw [hfq]
          exact Or.inl (List.mem_append_right _ (List.mem_singleton.mpr rfl))
        · refine Or.inr (isCreatedDir_append.mpr (Or.inr
            ⟨⟨List.take_prefix _ _, hfq⟩, ?_⟩))
          intro r hr hrf
          have hrq := hqNV.2 r hr hrf
          have hqcq : q <+: f.take (q.length + 1) := by
            rw [List.prefix_take_iff]
            exact ⟨hqf.1, by omega⟩
          refine ⟨hrq.1.trans hqcq, ?_⟩
          intro he
          have h1 := sPre_length_lt hrq
          have h2 : (f.take (q.length + 1)).length = q.length + 1 := by
            rw [List.length_take]
            omega
          rw [he, h2] at h1
          omega
      · intro hc
        by_cases hfq : f.take (q.length + 1) = f
        · exact hfnotroot (hfq ▸ hc)
        · have h1 : lk m.nodes (f.take (q.length + 1)) = none :=
            hamax _ ⟨List.take_prefix _ _, hfq⟩ (by rw [List.length_take]; omega)
          have h2 := (hpres _).mpr (Or.inr (Or.inl hc))
          rw [h1] at h2
          cases h2
    · rintro ⟨hdrop, hmem, hcroots⟩
      have hcne : c ≠ [] := by
        rintro rfl
        simp only [List.dropLast_nil] at hdrop
        subst hdrop
        obtain ⟨h1, h2⟩ := hqNV.2 r0 hr0 hr0f.1
        exact h2 (List.prefix_nil.mp h1)
      have hclen : c.length = q.length + 1 := by
        have h1 := List.length_dropLast c
        rw [hdrop] at h1
        have h2 : 0 < c.length := List.length_pos.mpr hcne
        omega
      rcases hmem with hmem | hmem
      · rcases List.mem_append.mp hmem with hcd | hcf
        · exfalso
          have h1 := hparent_key c (Or.inl hcd) hcroots
          rw [hdrop] at h1
          have h2 : (lk m.nodes q).isSome := (hpres q).mpr (Or.inr h1)
          rw [hqmiss] at h2
          cases h2
        · have h1 : c = f := List.mem_singleton.mp hcf
          have hpc : c <+: f := by
            rw [h1]
          rw [← hclen, pre_take hpc]
      · rcases isCreatedDir_append.mp hmem with hcd | hNV
        · exfalso
          have h1 := hparent_key c (Or.inr hcd) hcroots
          rw [hdrop] at h1
          have h2 : (lk m.nodes q).isSome := (hpres q).mpr (Or.inr h1)
          rw [hqmiss] at h2
          cases h2
        · rw [← hclen, pre_take hNV.1.1]
  -- run the push and check every clause of the new invariant
  obtain ⟨m', hpush, hroots', hlkf, hlka', hchain', hother'⟩ :=
    push_file_spec done.length hstop hlka
  refine ⟨m', hpush, ?_, ?_, ?_, ?_, ?_⟩
  · rw [hroots', hroots]
  · intro i g hi
    rcases Nat.lt_trichotomy i done.length with hlt | heq | hgt
    · rw [List.getElem?_append_left hlt] at hi
      have hgdone : g ∈ done := List.getElem?_mem hi
      have h1 : g ≠ f := fun he => hfnotdone (he ▸ hgdone)
      have h2 : g ≠ a := fun he => hadone (he ▸ hgdone)
      have h3 : g ∉ missChain m f := by
        intro hmem
        exact (hnotpre_df g hgdone).1 ((hchainNV g).mp hmem).1.1.1
      rw [hother' g h1 h2 h3]
      exact hfileInv i g hi
    · subst heq
      rw [List.getElem?_concat_length] at hi
      cases hi
      exact hlkf
    · exfalso
      rw [List.getElem?_append_right (by omega)] at hi
      have : i - done.length ≥ 1 := by omega
      rw [List.getElem?_eq_none (by simpa using this)] at hi
      cases hi
  · intro q hq
    by_cases hqa : q = a
    · subst hqa
      refine ⟨csa ++ [f.take (q.length + 1)], ?_, hnodup_a, hmem_a⟩
      rw [hlka', if_pos hq]
    · have hqf' : q ≠ f := fun he => hfnotroot (he ▸ hq)
      obtain ⟨cs, h1, h2, h3⟩ := hrootInv q hq
      have hqpres : (lk m.nodes q).isSome := by rw [h1]; rfl
      have hqchain : q ∉ missChain m f := by
        intro hmem
        have := hamax q ((hchainNV q).mp hmem).1.1 ((hchainNV q).mp hmem).2
        rw [this] at hqpres
        cases hqpres
      refine ⟨cs, ?_, h2, ?_⟩
      · rw [hother' q hqf' hqa hqchain]
        exact h1
      · intro c
        rw [hstable q hqpres hqa c]
        exact h3 c
  · intro q hqr hqcre
    by_cases hqa : q = a
    · subst hqa
      rcases haCls with h | _
      · exact absurd h hqr
      · refine ⟨csa ++ [f.take (q.length + 1)], ?_, hnodup_a, hmem_a⟩
        rw [if_neg hqr] at hlka'
        exact hlka'
    · rcases isCreatedDir_append.mp hqcre with hcd | hNV
      · obtain ⟨cs, h1, h2, h3⟩ := hdirInv q hqr hcd
        have hqpres : (lk m.nodes q).isSome := by rw [h1]; rfl
        have hqf' : q ≠ f := by
          rintro rfl
          exact hfnotcreated hcd
        have hqchain : q ∉ missChain m f := by
          intro hmem
          have := hamax q ((hchainNV q).mp hmem).1.1 ((hchainNV q).mp hmem).2
          rw [this] at hqpres
          cases hqpres
        refine ⟨cs, ?_, h2, ?_⟩
        · rw [hother' q hqf' hqa hqchain]
          exact h1
        · intro c
          rw [hstable q hqpres hqa c]
          exact h3 c
      · by_cases hcd : IsCreatedDir roots done q
        · obtain ⟨cs, h1, h2, h3⟩ := hdirInv q hqr hcd
          have hqpres : (lk m.nodes q).isSome := by rw [h1]; rfl
          have hqf' : q ≠ f := by
            rintro rfl
            exact hfnotcreated hcd
          have hqchain : q ∉ missChain m f := by
            intro hmem
            have := hamax q ((hchainNV q).mp hmem).1.1 ((hchainNV q).mp hmem).2
            rw [this] at hqpres
            cases hqpres
          refine ⟨cs, ?_, h2, ?_⟩
          · rw [hother' q hqf' hqa hqchain]
            exact h1
          · intro c
            rw [hstable q hqpres hqa c]
            exact h3 c
        · have hqlong : a.length < q.length := by
            by_contra hc
            exact hcd (hNVshort q hNV (by omega))
          have hqchain : q ∈ missChain m f := (hchainNV q).mpr ⟨hNV, hqlong⟩
          refine ⟨[f.take (q.length + 1)], hchain' q hqchain,
            List.nodup_singleton _, hmem_chain q hqchain⟩
  · intro q hqd hqr hqcre
    have hq1 : q ≠ f := by
      intro he
      exact hqd (he ▸ List.mem_append_right _ (List.mem_singleton.mpr rfl))
    have hq2 : q ≠ a := by
      intro he
      subst he
      rcases haCls with h | h
      · exact hqr h
      · exact hqcre (isCreatedDir_mono h)
    have hq3 : q ∉ missChain m f := by
      intro hmem
      exact hqcre (isCreatedDir_append.mpr (Or.inr ((hchainNV q).mp hmem).1))
    rw [hother' q hq1 hq2 hq3]
    exact hnoneInv q (fun hc => hqd (List.mem_append_left _ hc)) hqr
      (fun hc => hqcre (isCreatedDir_mono hc))

theorem mapInv_run_aux {roots files : List FsPath} (hs : SaneRun roots files) :
    ∀ (rest done : List FsPath) (m : PendingNodeMap), files = done ++ rest →
      MapInv roots done m →
      ∃ m', pushFiles m rest done.length = some m' ∧ MapInv roots files m' := by
  intro rest
  induction rest with
  | nil =>
    intro done m hsplit hinv
    refine ⟨m, rfl, ?_⟩
    rw [hsplit, List.append_nil]
    exact hinv
  | cons f fs ih =>
    intro done m hsplit hinv
    obtain ⟨m1, hp, hinv1⟩ := mapInv_push hs hsplit hinv
    rw [pushFiles, hp]
    have hsplit1 : files = (done ++ [f]) ++ fs := by
      rw [hsplit]
      simp
    obtain ⟨m', hps, hinv'⟩ := ih (done ++ [f]) m1 hsplit1 hinv1
    rw [List.length_append, List.length_singleton] at hps
    exact ⟨m', hps, hinv'⟩

/-- The discovery phase of a sane run succeeds, producing the staging map
described by `MapInv`. -/
theorem mapInv_run {roots files : List FsPath} (hs : SaneRun roots files) :
    ∃ m, pushFiles (PendingNodeMap.new roots) files 0 = some m ∧ MapInv roots files m :=
  mapInv_run_aux hs files [] (PendingNodeMap.new roots) rfl (mapInv_init roots)

/-! ## Leaf indices of the realized tree (claim C1) -/

/-- The longest file path length: bounds the recursion depth of the realizer. -/
def maxLen (files : List FsPath) : Nat := (files.map List.length).foldr Nat.max 0

theorem length_le_maxLen {files : List FsPath} {g : FsPath} (h : g ∈ files) :
    g.length ≤ maxLen files := by
  induction files with
  | nil => cases h
  | cons f fs ih =>
    rcases List.mem_cons.mp h with rfl | h
    · exact Nat.le_max_left _ _
    · exact Nat.le_trans (ih h) (Nat.le_max_right _ _)

theorem key_ne_nil {roots files : List FsPath} (hs : SaneRun roots files)
    {c : FsPath} (hc : c ∈ files ∨ IsCreatedDir roots files c) : c ≠ [] := by
  obtain ⟨_, _, _, _, hUR⟩ := hs
  rcases hc with hc | ⟨g, hg, hvia⟩
  · obtain ⟨r, _, hrc⟩ := hUR c hc
    intro h
    rw [h] at hrc
    have := sPre_length_lt hrc
    simp at this
  · obtain ⟨r, hr, hrg⟩ := hUR g hg
    intro h
    rw [h] at hvia
    obtain ⟨h1, h2⟩ := hvia.2 r hr hrg.1
    exact h2 (List.prefix_nil.mp h1)

/-- The subtree condition: file `g` belongs to the realized subtree rooted at
key `q` when `q` is an ancestor and no deeper root separates them. -/
def InSub (roots : List FsPath) (q g : FsPath) : Prop :=
  q <+: g ∧ ∀ r ∈ roots, SPre q r → ¬ r <+: g

/-- Distinct children of the same staging key own disjoint file sets. -/
theorem child_unique {roots files : List FsPath} (hs : SaneRun roots files)
    {q c c' g : FsPath} (hg : g ∈ files)
    (hc : IsChild roots files q c) (hc' : IsChild roots files q c')
    (hcg : InSub roots c g) (hcg' : InSub roots c' g) : c = c' := by
  have h1 : c ≠ [] := key_ne_nil hs hc.2.1
  have h2 : c' ≠ [] := key_ne_nil hs hc'.2.1
  have l1 : c.length = q.length + 1 := by
    have := List.length_dropLast c
    rw [hc.1] at this
    have := List.length_pos.mpr h1
    omega
  have l2 : c'.length = q.length + 1 := by
    have := List.length_dropLast c'
    rw [hc'.1] at this
    have := List.length_pos.mpr h2
    omega
  exact pre_unique_length hcg.1 hcg'.1 (by omega)

/-- Moving one level down: membership of `g` in the subtree at `q` passes
through the unique child `g.take (q.length + 1)`. -/
theorem inSub_step {roots files : List FsPath} (hs : SaneRun roots files)
    {q g : FsPath} (hg : g ∈ files)
    (hq : q ∈ roots ∨ IsCreatedDir roots files q)
    (hsub : InSub roots q g) :
    IsChild roots files q (g.take (q.length + 1)) ∧
      InSub roots (g.take (q.length + 1)) g := by
  obtain ⟨hrN, hfN, hPP, hPR, hUR⟩ := hs
  have hqg : q ≠ g := by
    rintro rfl
    rcases hq with h | ⟨g', hg', hvia⟩
    · exact hPR q hg q h (List.prefix_refl q)
    · exact hPP q hg g' hg' (fun he => hvia.1.2 he) hvia.1.1
  have hqglen : q.length < g.length := sPre_length_lt ⟨hsub.1, hqg⟩
  have hcpre : g.take (q.length + 1) <+: g := List.take_prefix _ _
  have hclen : (g.take (q.length + 1)).length = q.length + 1 := by
    rw [List.length_take]
    omega
  have hcdrop : (g.take (q.length + 1)).dropLast = q := by
    rw [dropLast_take_succ (by omega), pre_take hsub.1]
  have hqc : q <+: g.take (q.length + 1) := by
    have h := List.dropLast_prefix (g.take (q.length + 1))
    rw [hcdrop] at h
    exact h
  have hcroots : g.take (q.length + 1) ∉ roots := by
    intro hcr
    by_cases hcg : g.take (q.length + 1) = g
    · exact hPR g hg g (hcg ▸ hcr) (List.prefix_refl g)
    · refine hsub.2 _ hcr ⟨hqc, ?_⟩ hcpre
      intro he
      have := congrArg List.length he
      rw [hclen] at this
      omega
  refine ⟨⟨hcdrop, ?_, hcroots⟩, hcpre, ?_⟩
  · by_cases hcg : g.take (q.length + 1) = g
    · rw [hcg]
      exact Or.inl hg
    · right
      refine ⟨g, hg, ⟨hcpre, hcg⟩, ?_⟩
      intro r hr hrg
      rcases List.prefix_or_prefix_of_prefix hrg hcpre with hrc | hcr
      · refine ⟨hrc, ?_⟩
        rintro rfl
        exact hcroots hr
      · exfalso
        have hqr : q <+: r := hqc.trans hcr
        by_cases hqr' : q = r
        · subst hqr'
          have := hcr.length_le
          rw [hclen] at this
          omega
        · exact hsub.2 r hr ⟨hqr, hqr'⟩ hrg
  · intro r hr hcr hrg
    have hqr : q <+: r := hqc.trans hcr.1
    have hqr' : q ≠ r := by
      rintro rfl
      have := hcr.1.length_le
      rw [hclen] at this
      omega
    exact hsub.2 r hr ⟨hqr, hqr'⟩ hrg

/-- Membership in a child subtree lifts to the parent subtree. -/
theorem inSub_of_child {roots files : List FsPath} (hs : SaneRun roots files)
    {q c g : FsPath} (hg : g ∈ files) (hc : IsChild roots files q c)
    (hcg : InSub roots c g) : InSub roots q g := by
  have hcne : c ≠ [] := key_ne_nil hs hc.2.1
  have hqc : q <+: c := by
    have h := List.dropLast_prefix c
    rw [hc.1] at h
    exact h
  have hclen : c.length = q.length + 1 := by
    have h1 := List.length_dropLast c
    rw [hc.1] at h1
    have := List.length_pos.mpr hcne
    omega
  refine ⟨hqc.trans hcg.1, ?_⟩
  intro r hr hqr hrg
  rcases List.prefix_or_prefix_of_prefix hcg.1 hrg with hcr | hrc
  · have hcr' : c ≠ r := fun he => hc.2.2 (he ▸ hr)
    exact hcg.2 r hr ⟨hcr, hcr'⟩ hrg
  · have h1 := sPre_length_lt hqr
    have h2 := hrc.length_le
    have : r = c := pre_unique_length hrc (List.prefix_refl c) (by omega)
    exact hc.2.2 (this ▸ hr)

theorem newList_spec_aux {m : PendingNodeMap} {fuel : Nat} {spec : FsPath → Nat → Prop} :
    ∀ (cs : List FsPath), cs.Nodup →
      (∀ c ∈ cs, ∃ t, PlaylistNode.new m fuel c = some t ∧ (leafIndices t).Nodup ∧
        (∀ i, i ∈ leafIndices t ↔ spec c i)) →
      (∀ c ∈ cs, ∀ c' ∈ cs, ∀ i, spec c i → spec c' i → c = c') →
      ∃ ts, PlaylistNode.newList m fuel cs = some ts ∧ (leafIndicesList ts).Nodup ∧
        (∀ i, i ∈ leafIndicesList ts ↔ ∃ c ∈ cs, spec c i) := by
  intro cs
  induction cs with
  | nil =>
    intro _ _ _
    refine ⟨[], by rw [PlaylistNode.newList], ?_, ?_⟩
    · rw [leafIndicesList]
      exact List.nodup_nil
    · intro i
      rw [leafIndicesList]
      simp
  | cons c cs ih =>
    intro hnd hall hdisj
    obtain ⟨t, ht, htN, htMem⟩ := hall c (List.mem_cons_self _ _)
    obtain ⟨ts, hts, htsN, htsMem⟩ := ih (List.nodup_cons.mp hnd).2
      (fun c' hc' => hall c' (List.mem_cons_of_mem _ hc'))
      (fun c' hc' c'' hc'' i h1 h2 =>
        hdisj c' (List.mem_cons_of_mem _ hc') c'' (List.mem_cons_of_mem _ hc'') i h1 h2)
    rw [PlaylistNode.newList, ht, hts]
    refine ⟨t :: ts, rfl, ?_, ?_⟩
    · rw [leafIndicesList, List.nodup_append]
      refine ⟨htN, htsN, ?_⟩
      intro i hi1 hi2
      obtain ⟨c', hc', hspec'⟩ := (htsMem i).mp hi2
      have hspec := (htMem i).mp hi1
      have hcc : c = c' :=
        hdisj c (List.mem_cons_self _ _) c' (List.mem_cons_of_mem _ hc') i hspec hspec'
      exact (List.nodup_cons.mp hnd).1 (hcc ▸ hc')
    · intro i
      rw [leafIndicesList, List.mem_append, htMem i, htsMem i]
      constructor
      · rintro (h | ⟨c', hc', h⟩)
        · exact ⟨c, List.mem_cons_self _ _, h⟩
        · exact ⟨c', List.mem_cons_of_mem _ hc', h⟩
      · rintro ⟨c', hc', h⟩
        rcases List.mem_cons.mp hc' with rfl | hc'
        · exact Or.inl h
        · exact Or.inr ⟨c', hc', h⟩

/-- The realizer on a directory key of a sane run: it succeeds given fuel
beyond the deepest file, and its leaves are exactly the indices of the files
in the subtree at that key, each once. -/
theorem new_spec {roots files : List FsPath} (hs : SaneRun roots files)
    {m : PendingNodeMap} (hinv : MapInv roots files m) :
    ∀ (fuel : Nat) (q : FsPath), (q ∈ roots ∨ IsCreatedDir roots files q) →
      0 < fuel → maxLen files < fuel + q.length →
      ∃ t, PlaylistNode.new m fuel q = some t ∧ (leafIndices t).Nodup ∧
        (∀ i, i ∈ leafIndices t ↔ ∃ g, files[i]? = some g ∧ InSub roots q g) := by
  intro fuel
  induction fuel with
  | zero =>
    intro q _ h0 _
    omega
  | succ fuel ih =>
    intro q hq _ hbound
    obtain ⟨cs, hlk, hcsN, hcsMem⟩ : ∃ cs,
        lk m.nodes q = some (PendingNode.dir
          (if q ∈ roots then rootTitle q else dirTitle q) cs) ∧
        cs.Nodup ∧ ∀ c, c ∈ cs ↔ IsChild roots files q c := by
      by_cases hqr : q ∈ roots
      · obtain ⟨cs, h1, h2, h3⟩ := hinv.2.2.1 q hqr
        rw [if_pos hqr]
        exact ⟨cs, h1, h2, h3⟩
      · rcases hq with h | h
        · exact absurd h hqr
        · obtain ⟨cs, h1, h2, h3⟩ := hinv.2.2.2.1 q hqr h
          rw [if_neg hqr]
          exact ⟨cs, h1, h2, h3⟩
    have hchild : ∀ c ∈ cs, ∃ t, PlaylistNode.new m fuel c = some t ∧
        (leafIndices t).Nodup ∧
        (∀ i, i ∈ leafIndices t ↔ ∃ g, files[i]? = some g ∧ InSub roots c g) := by
      intro c hc
      have hIsC := (hcsMem c).mp hc
      have hcne : c ≠ [] := key_ne_nil hs hIsC.2.1
      have hclen : c.length = q.length + 1 := by
        have h1 := List.length_dropLast c
        rw [hIsC.1] at h1
        have := List.length_pos.mpr hcne
        omega
      have hclenle : c.length ≤ maxLen files := by
        rcases hIsC.2.1 with h | ⟨g, hg, hvia⟩
        · exact length_le_maxLen h
        · have h1 := sPre_length_lt hvia.1
          have h2 := length_le_maxLen hg
          omega
      have hfuel : 0 < fuel := by omega
      rcases hIsC.2.1 with hcf | hccre
      · obtain ⟨j, hj⟩ := List.getElem?_of_mem hcf
        have hlkc := hinv.2.1 j c hj
        obtain ⟨k, hk⟩ := Nat.exists_eq_succ_of_ne_zero (Nat.pos_iff_ne_zero.mp hfuel)
        rw [hk, PlaylistNode.new, hlkc]
        refine ⟨PlaylistNode.file j (leafName c), rfl, ?_, ?_⟩
        · rw [leafIndices]
          exact List.nodup_singleton _
        · intro i
          rw [leafIndices, List.mem_singleton]
          constructor
          · rintro rfl
            refine ⟨c, hj, List.prefix_refl c, ?_⟩
            intro r _ hcr hrc
            have h1 := sPre_length_lt hcr
            have h2 := hrc.length_le
            omega
          · rintro ⟨g, hg, hsub⟩
            have hgf : g ∈ files := List.getElem?_mem hg
            have hgc : g = c := by
              by_contra hne
              exact hs.2.2.1 c (List.getElem?_mem hj) g hgf
                (fun he => hne he.symm) hsub.1
            rw [hgc] at hg
            have hilen : i < files.length := (List.getElem?_eq_some.mp hg).1
            exact List.getElem?_inj hilen hs.2.1 (hg.trans hj.symm)
      · exact ih c (Or.inr hccre) hfuel (by omega)
    have hdisj : ∀ c ∈ cs, ∀ c' ∈ cs, ∀ (i : Nat),
        (∃ g, files[i]? = some g ∧ InSub roots c g) →
        (∃ g, files[i]? = some g ∧ InSub roots c' g) → c = c' := by
      rintro c hc c' hc' i ⟨g, hg, hsub⟩ ⟨g', hg', hsub'⟩
      rw [hg] at hg'
      cases hg'
      exact child_unique hs (List.getElem?_mem hg) ((hcsMem c).mp hc)
        ((hcsMem c').mp hc') hsub hsub'
    obtain ⟨ts, hts, htsN, htsMem⟩ := newList_spec_aux cs hcsN hchild hdisj
    rw [PlaylistNode.new]
    simp only [hlk, hts]
    refine ⟨PlaylistNode.dir (if q ∈ roots then rootTitle q else dirTitle q) ts,
      rfl, ?_, ?_⟩
    · rw [leafIndices]
      exact htsN
    · intro i
      rw [leafIndices, htsMem i]
      constructor
      · rintro ⟨c, hc, g, hg, hsub⟩
        exact ⟨g, hg, inSub_of_child hs (List.getElem?_mem hg) ((hcsMem c).mp hc) hsub⟩
      · rintro ⟨g, hg, hsub⟩
        obtain ⟨hchild', hsub'⟩ := inSub_step hs (List.getElem?_mem hg) hq hsub
        exact ⟨g.take (q.length + 1), (hcsMem _).mpr hchild', g, hg, hsub'⟩

theorem exists_max_root {roots : List FsPath} {g : FsPath} (h : ∃ r ∈ roots, r <+: g) :
    ∃ r ∈ roots, r <+: g ∧ ∀ r' ∈ roots, r' <+: g → r'.length ≤ r.length := by
  induction roots with
  | nil =>
    obtain ⟨r, hr, _⟩ := h
    cases hr
  | cons r0 rs ih =>
    by_cases h0 : r0 <+: g
    · by_cases hrs : ∃ r ∈ rs, r <+: g
      · obtain ⟨r, hr, hrg, hmax⟩ := ih hrs
        rcases le_or_lt r0.length r.length with hle | hlt
        · refine ⟨r, List.mem_cons_of_mem _ hr, hrg, ?_⟩
          intro r' hr' hr'g
          rcases List.mem_cons.mp hr' with rfl | hr'
          · exact hle
          · exact hmax r' hr' hr'g
        · refine ⟨r0, List.mem_cons_self _ _, h0, ?_⟩
          intro r' hr' hr'g
          rcases List.mem_cons.mp hr' with rfl | hr'
          · exact Nat.le_refl _
          · exact Nat.le_trans (hmax r' hr' hr'g) (by omega)
      · refine ⟨r0, List.mem_cons_self _ _, h0, ?_⟩
        intro r' hr' hr'g
        rcases List.mem_cons.mp hr' with rfl | hr'
        · exact Nat.le_refl _
        · exact absurd ⟨r', hr', hr'g⟩ hrs
    · obtain ⟨r, hr, hrg⟩ := h
      have hr2 : r ∈ rs := by
        rcases List.mem_cons.mp hr with rfl | h2
        · exact absurd hrg h0
        · exact h2
      obtain ⟨r3, hrm, hrg3, hmax⟩ := ih ⟨r, hr2, hrg⟩
      refine ⟨r3, List.mem_cons_of_mem _ hrm, hrg3, ?_⟩
      intro r' hr'' hr'g
      rcases List.mem_cons.mp hr'' with rfl | hr''
      · exact absurd hr'g h0
      · exact hmax r' hr'' hr'g

/-- C1: in every run that registers each accepted file path exactly once (any
sane walk below the configured roots, indices assigned in arrival order), the
discovery phase succeeds, the realizer succeeds, and the multiset of leaf
track indices across the whole realized tree equals exactly
`{0, ..., N - 1}` where `N` is the number of registered tracks: every track
appears in exactly one leaf and no leaf carries an out-of-range index. -/
theorem c1_leaf_indices_exact (roots files : List FsPath) (hs : SaneRun roots files) :
    ∃ m nodes, pushFiles (PendingNodeMap.new roots) files 0 = some m ∧
      m.into_nodes (maxLen files + 1) = some nodes ∧
      Multiset.ofList (leafIndicesList nodes) = Multiset.range files.length := by
  obtain ⟨m, hrun, hinv⟩ := mapInv_run hs
  have hforest : ∀ r ∈ roots, ∃ t, PlaylistNode.new m (maxLen files + 1) r = some t ∧
      (leafIndices t).Nodup ∧
      (∀ i, i ∈ leafIndices t ↔ ∃ g, files[i]? = some g ∧ InSub roots r g) :=
    fun r hr => new_spec hs hinv _ r (Or.inl hr) (by omega) (by omega)
  have hdisj : ∀ r ∈ roots, ∀ r' ∈ roots, ∀ (i : Nat),
      (∃ g, files[i]? = some g ∧ InSub roots r g) →
      (∃ g, files[i]? = some g ∧ InSub roots r' g) → r = r' := by
    rintro r hr r' hr' i ⟨g, hg, hsub⟩ ⟨g', hg', hsub'⟩
    rw [hg] at hg'
    cases hg'
    by_contra hne
    rcases List.prefix_or_prefix_of_prefix hsub.1 hsub'.1 with h | h
    · exact hsub.2 r' hr' ⟨h, hne⟩ hsub'.1
    · exact hsub'.2 r hr ⟨h, fun he => hne he.symm⟩ hsub.1
  obtain ⟨ts, hts, htsN, htsMem⟩ := newList_spec_aux roots hs.1 hforest hdisj
  refine ⟨m, ts, hrun, ?_, ?_⟩
  · rw [PendingNodeMap.into_nodes, hinv.1]
    exact hts
  · have hmem : ∀ i, i ∈ leafIndicesList ts ↔ i ∈ List.range files.length := by
      intro i
      rw [htsMem i, List.mem_range]
      constructor
      · rintro ⟨r, hr, g, hg, _⟩
        exact (List.getElem?_eq_some.mp hg).1
      · intro hi
        obtain ⟨g, hg⟩ : ∃ g, files[i]? = some g := ⟨files[i], List.getElem?_eq_getElem hi⟩
        have hgf : g ∈ files := List.getElem?_mem hg
        have hex : ∃ r ∈ roots, r <+: g := by
          obtain ⟨r, hr, hrg⟩ := hs.2.2.2.2 g hgf
          exact ⟨r, hr, hrg.1⟩
        obtain ⟨r, hr, hrg, hmax⟩ := exists_max_root hex
        refine ⟨r, hr, g, hg, hrg, ?_⟩
        intro r' hr' hrr' hr'g
        have h1 := sPre_length_lt hrr'
        have h2 := hmax r' hr' hr'g
        omega
    have hperm : List.Perm (leafIndicesList ts) (List.range files.length) :=
      (List.perm_ext_iff_of_nodup htsN (List.nodup_range _)).mpr hmem
    rw [← Multiset.coe_range]
    exact Multiset.coe_eq_coe.mpr hperm

/-- Witness for C1: one root, three accepted files. -/
theorem c1_leaf_indices_exact_witness :
    SaneRun [["movies"]]
      [["movies", "s1", "b.mkv"], ["movies", "s1", "a.mp4"], ["movies", "x.mkv"]] ∧
    ∃ m nodes,
      pushFiles (PendingNodeMap.new [["movies"]])
        [["movies", "s1", "b.mkv"], ["movies", "s1", "a.mp4"], ["movies", "x.mkv"]] 0 =
        some m ∧
      m.into_nodes (maxLen [["movies", "s1", "b.mkv"], ["movies", "s1", "a.mp4"],
        ["movies", "x.mkv"]] + 1) = some nodes ∧
      Multiset.ofList (leafIndicesList nodes) = Multiset.range 3 :=
  ⟨by decide, c1_leaf_indices_exact _ _ (by decide)⟩

/-! ## The sort comparator (claims C2 and C4) -/

theorem char_toNat_inj {a b : Char} (h : a.toNat = b.toNat) : a = b :=
  Char.ext (UInt32.ext h)

theorem lexCmp_eq_iff : ∀ x y : List Char, lexCmp x y = Ordering.eq ↔ x = y := by
  intro x
  induction x with
  | nil =>
    intro y
    cases y with
    | nil => simp [lexCmp]
    | cons b bs => simp [lexCmp]
  | cons a as ih =>
    intro y
    cases y with
    | nil => simp [lexCmp]
    | cons b bs =>
      rw [lexCmp]
      cases h : compare a.toNat b.toNat with
      | lt =>
        simp only []
        constructor
        · intro hc
          cases hc
        · rintro hc
          injection hc with h1 h2
          subst h1
          rw [Nat.compare_eq_lt] at h
          omega
      | eq =>
        simp only []
        have hab : a = b := char_toNat_inj (Nat.compare_eq_eq.mp h)
        subst hab
        rw [ih bs]
        constructor
        · rintro rfl
          rfl
        · rintro hc
          injection hc
      | gt =>
        simp only []
        constructor
        · intro hc
          cases hc
        · rintro hc
          injection hc with h1 h2
          subst h1
          rw [Nat.compare_eq_gt] at h
          omega

theorem lexCmp_gt_iff : ∀ x y : List Char, lexCmp x y = Ordering.gt ↔ lexCmp y x = Ordering.lt := by
  intro x
  induction x with
  | nil =>
    intro y
    cases y with
    | nil => simp [lexCmp]
    | cons b bs => simp [lexCmp]
  | cons a as ih =>
    intro y
    cases y with
    | nil => simp [lexCmp]
    | cons b bs =>
      rw [lexCmp, lexCmp]
      cases h : compare a.toNat b.toNat with
      | lt =>
        rw [Nat.compare_eq_lt] at h
        rw [(Nat.compare_eq_gt).mpr h]
        simp
      | eq =>
        have he : a.toNat = b.toNat := Nat.compare_eq_eq.mp h
        rw [(Nat.compare_eq_eq).mpr he.symm]
        exact ih bs
      | gt =>
        rw [Nat.compare_eq_gt] at h
        rw [(Nat.compare_eq_lt).mpr h]
        simp

theorem lexCmp_lt_trans : ∀ x y z : List Char,
    lexCmp x y = Ordering.lt → lexCmp y z = Ordering.lt → lexCmp x z = Ordering.lt := by
  intro x
  induction x with
  | nil =>
    intro y z h1 h2
    cases y with
    | nil =>
      rw [lexCmp] at h1
      cases h1
    | cons b bs =>
      cases z with
      | nil => rw [lexCmp] at h2; cases h2
      | cons c cs => rw [lexCmp]
  | cons a as ih =>
    intro y z h1 h2
    cases y with
    | nil => rw [lexCmp] at h1; cases h1
    | cons b bs =>
      cases z with
      | nil => rw [lexCmp] at h2; cases h2
      | cons c cs =>
        rw [lexCmp] at h1 h2 ⊢
        cases hab : compare a.toNat b.toNat with
        | lt =>
          rw [hab] at h1
          cases hbc : compare b.toNat c.toNat with
          | lt =>
            rw [Nat.compare_eq_lt] at hab hbc
            rw [(Nat.compare_eq_lt).mpr (by omega : a.toNat < c.toNat)]
          | eq =>
            rw [hbc] at h2
            have := Nat.compare_eq_eq.mp hbc
            rw [Nat.compare_eq_lt] at hab
            rw [(Nat.compare_eq_lt).mpr (by omega : a.toNat < c.toNat)]
          | gt =>
            rw [hbc] at h2
            cases h2
        | eq =>
          rw [hab] at h1
          have he := Nat.compare_eq_eq.mp hab
          cases hbc : compare b.toNat c.toNat with
          | lt =>
            rw [Nat.compare_eq_lt] at hbc
            rw [(Nat.compare_eq_lt).mpr (by omega : a.toNat < c.toNat)]
          | eq =>
            rw [hbc] at h2
            have he2 := Nat.compare_eq_eq.mp hbc
            rw [(Nat.compare_eq_eq).mpr (by omega : a.toNat = c.toNat)]
            exact ih bs cs h1 h2
          | gt =>
            rw [hbc] at h2
            cases h2
        | gt =>
          rw [hab] at h1
          cases h1

theorem lexCmp_negtrans {x y z : List Char} (h : lexCmp x z = Ordering.lt)
    (h1 : ¬ lexCmp x y = Ordering.lt) (h2 : ¬ lexCmp y z = Ordering.lt) : False := by
  cases hxy : lexCmp x y with
  | lt => exact h1 hxy
  | eq =>
    have hxy' := (lexCmp_eq_iff x y).mp hxy
    subst hxy'
    exact h2 h
  | gt =>
    have hyx : lexCmp y x = Ordering.lt := (lexCmp_gt_iff x y).mp hxy
    cases hyz : lexCmp y z with
    | lt => exact h2 hyz
    | eq =>
      have hyz' := (lexCmp_eq_iff y z).mp hyz
      subst hyz'
      rw [h] at hxy
      cases hxy
    | gt =>
      have hzy : lexCmp z y = Ordering.lt := (lexCmp_gt_iff y z).mp hyz
      have h3 := lexCmp_lt_trans z y x hzy hyx
      have h4 := (lexCmp_gt_iff x z).mpr h3
      rw [h] at h4
      cases h4

/-- `leP` is the propositional form of the sort's "may stay before" order. -/
def leP (a b : PlaylistNode) : Prop := nodeLe a b = true

theorem nodeLe_iff {a b : PlaylistNode} :
    nodeLe a b = true ↔ ¬ pcmp b a = some Ordering.lt := by
  simp [nodeLe, nodeLt]

theorem pcmp_asymm {a b : PlaylistNode} (h1 : pcmp a b = some Ordering.lt)
    (h2 : pcmp b a = some Ordering.lt) : False := by
  cases a <;> cases b <;> simp [pcmp, strCmp] at h1 h2
  all_goals {
    have h3 := (lexCmp_gt_iff _ _).mpr h2
    rw [h1] at h3
    cases h3
  }

theorem nodeLe_total (a b : PlaylistNode) : (nodeLe a b || nodeLe b a) = true := by
  by_contra h
  simp [nodeLe, nodeLt] at h
  exact pcmp_asymm h.2 h.1

theorem nodeLe_trans (a b c : PlaylistNode) (h1 : nodeLe a b = true)
    (h2 : nodeLe b c = true) : nodeLe a c = true := by
  rw [nodeLe_iff] at h1 h2 ⊢
  intro hca
  cases a <;> cases b <;> cases c <;> simp [pcmp, strCmp] at h1 h2 hca ⊢
  all_goals exact lexCmp_negtrans hca h2 h1

theorem PlaylistNode.sort_dir (t : String) (cs : List PlaylistNode) :
    PlaylistNode.sort (PlaylistNode.dir t cs) =
      PlaylistNode.dir t ((cs.mergeSort nodeLe).map PlaylistNode.sort) := by
  rw [PlaylistNode.sort]
  rw [List.attach_map_val]

theorem PlaylistNode.sort_file (i : Nat) (s : String) :
    PlaylistNode.sort (PlaylistNode.file i s) = PlaylistNode.file i s := by
  rw [PlaylistNode.sort]

/-- Sorting a node preserves its kind and its title/name, hence the
comparator's verdicts. -/
theorem pcmp_sort (a b : PlaylistNode) :
    pcmp (PlaylistNode.sort a) (PlaylistNode.sort b) = pcmp a b := by
  cases a <;> cases b <;>
    simp only [PlaylistNode.sort_dir, PlaylistNode.sort_file, pcmp]

theorem nodeLe_sort (a b : PlaylistNode) :
    nodeLe (PlaylistNode.sort a) (PlaylistNode.sort b) = nodeLe a b := by
  simp only [nodeLe, nodeLt, pcmp_sort]

mutual
/-- All sibling lists inside a tree (each directory's children list). -/
def sibLists : PlaylistNode → List (List PlaylistNode)
  | .file _ _ => []
  | .dir _ ns => ns :: sibListsList ns
/-- `sibLists` over a forest. -/
def sibListsList : List PlaylistNode → List (List PlaylistNode)
  | [] => []
  | n :: ns => sibLists n ++ sibListsList ns
end

/-- All sibling lists of a forest, the top level included. -/
def forestSibLists (ns : List PlaylistNode) : List (List PlaylistNode) :=
  ns :: sibListsList ns

theorem sibListsList_map_mem {f : PlaylistNode → PlaylistNode} :
    ∀ (ms : List PlaylistNode) (l : List PlaylistNode),
      l ∈ sibListsList (ms.map f) ↔ ∃ x ∈ ms, l ∈ sibLists (f x) := by
  intro ms
  induction ms with
  | nil =>
    intro l
    rw [List.map_nil, sibListsList]
    simp
  | cons x xs ih =>
    intro l
    rw [List.map_cons, sibListsList, List.mem_append, ih l]
    constructor
    · rintro (h | ⟨y, hy, h⟩)
      · exact ⟨x, List.mem_cons_self _ _, h⟩
      · exact ⟨y, List.mem_cons_of_mem _ hy, h⟩
    · rintro ⟨y, hy, h⟩
      rcases List.mem_cons.mp hy with rfl | hy
      · exact Or.inl h
      · exact Or.inr ⟨y, hy, h⟩

theorem sorted_sib_aux :
    ∀ (n : Nat) (t : PlaylistNode), sizeOf t ≤ n →
      ∀ l ∈ sibLists (PlaylistNode.sort t), l.Pairwise leP := by
  intro n
  induction n with
  | zero =>
    intro t ht l hl
    cases t with
    | dir ti cs =>
      simp only [PlaylistNode.dir.sizeOf_spec] at ht
      omega
    | file i s =>
      rw [PlaylistNode.sort_file, sibLists] at hl
      cases hl
  | succ n ih =>
    intro t ht l hl
    cases t with
    | file i s =>
      rw [PlaylistNode.sort_file, sibLists] at hl
      cases hl
    | dir ti cs =>
      rw [PlaylistNode.sort_dir, sibLists] at hl
      rcases List.mem_cons.mp hl with rfl | hl
      · have hsorted := List.sorted_mergeSort nodeLe_trans nodeLe_total cs
        rw [List.pairwise_map]
        refine hsorted.imp ?_
        intro a b hab
        show nodeLe (PlaylistNode.sort a) (PlaylistNode.sort b) = true
        rw [nodeLe_sort]
        exact hab
      · rw [sibListsList_map_mem] at hl
        obtain ⟨x, hx, hlx⟩ := hl
        have hxcs : x ∈ cs := (List.mergeSort_perm cs nodeLe).mem_iff.mp hx
        have hxsize : sizeOf x ≤ n := by
          have h1 := List.sizeOf_lt_of_mem hxcs
          simp only [PlaylistNode.dir.sizeOf_spec] at ht
          omega
        exact ih x hxsize l hlx

/-- Every sibling list of the sorted forest is sorted for the comparator. -/
theorem sortForest_pairwise (ns : List PlaylistNode) :
    ∀ l ∈ forestSibLists (sortForest ns), l.Pairwise leP := by
  intro l hl
  rw [forestSibLists] at hl
  rcases List.mem_cons.mp hl with rfl | hl
  · rw [sortForest, List.pairwise_map]
    refine (List.sorted_mergeSort nodeLe_trans nodeLe_total ns).imp ?_
    intro a b hab
    show nodeLe (PlaylistNode.sort a) (PlaylistNode.sort b) = true
    rw [nodeLe_sort]
    exact hab
  · rw [sortForest, sibListsList_map_mem] at hl
    obtain ⟨x, hx, hlx⟩ := hl
    exact sorted_sib_aux (sizeOf x) x (Nat.le_refl _) l hlx

theorem strCmp_eq_iff {s t : String} : strCmp s t = Ordering.eq ↔ s = t := by
  constructor
  · intro h
    exact String.ext ((lexCmp_eq_iff _ _).mp h)
  · rintro rfl
    exact (lexCmp_eq_iff _ _).mpr rfl

theorem strCmp_gt_iff {s t : String} : strCmp s t = Ordering.gt ↔ strCmp t s = Ordering.lt :=
  lexCmp_gt_iff s.data t.data

/-- C2: sibling leaves compare by file name alone.  First: the comparator's
verdict on two leaves is independent of their track indices.  Second: in every
sibling list of the sorted tree, of two leaves with distinct file names the one
with the byte-wise smaller name comes first, whatever the indices. -/
theorem c2_sibling_leaves_by_name (ns : List PlaylistNode) :
    (∀ (i1 i2 j1 j2 : Nat) (n1 n2 : String),
      pcmp (PlaylistNode.file i1 n1) (PlaylistNode.file i2 n2) =
        pcmp (PlaylistNode.file j1 n1) (PlaylistNode.file j2 n2)) ∧
    (∀ l ∈ forestSibLists (sortForest ns), ∀ (i j i1 i2 : Nat) (n1 n2 : String),
      i < j → l[i]? = some (PlaylistNode.file i1 n1) →
      l[j]? = some (PlaylistNode.file i2 n2) → n1 ≠ n2 →
      strCmp n1 n2 = Ordering.lt) := by
  constructor
  · intro i1 i2 j1 j2 n1 n2
    rfl
  · intro l hl i j i1 i2 n1 n2 hij hi hj hne
    have hpw := sortForest_pairwise ns l hl
    rw [List.pairwise_iff_getElem] at hpw
    obtain ⟨hiLen, hgi⟩ := List.getElem?_eq_some.mp hi
    obtain ⟨hjLen, hgj⟩ := List.getElem?_eq_some.mp hj
    have hrel := hpw i j hiLen hjLen hij
    rw [hgi, hgj, leP, nodeLe_iff, pcmp] at hrel
    cases h : strCmp n2 n1 with
    | lt => exact absurd (by rw [h]) hrel
    | eq => exact absurd (strCmp_eq_iff.mp h).symm hne
    | gt => exact strCmp_gt_iff.mp h

/-- Witness for C2: two sibling leaves, larger index on the smaller name. -/
theorem c2_sibling_leaves_by_name_witness :
    ((0 : Nat) < 1) ∧
    (sortForest [PlaylistNode.file 5 "b.mkv", PlaylistNode.file 2 "a.mp4"])[0]? =
      some (PlaylistNode.file 2 "a.mp4") ∧
    (sortForest [PlaylistNode.file 5 "b.mkv", PlaylistNode.file 2 "a.mp4"])[1]? =
      some (PlaylistNode.file 5 "b.mkv") ∧
    strCmp "a.mp4" "b.mkv" = Ordering.lt := by
  have hAB : nodeLe (PlaylistNode.file 5 "b.mkv") (PlaylistNode.file 2 "a.mp4") = false := by
    decide
  have h0 : sortForest [PlaylistNode.file 5 "b.mkv", PlaylistNode.file 2 "a.mp4"] =
      [PlaylistNode.file 2 "a.mp4", PlaylistNode.file 5 "b.mkv"] := by
    rw [sortForest]
    have hms : List.mergeSort [PlaylistNode.file 5 "b.mkv", PlaylistNode.file 2 "a.mp4"] nodeLe
        = [PlaylistNode.file 2 "a.mp4", PlaylistNode.file 5 "b.mkv"] := by
      simp [List.mergeSort, List.merge, hAB]
    rw [hms]
    simp [PlaylistNode.sort_file]
  refine ⟨Nat.zero_lt_one, ?_, ?_, ?_⟩
  · rw [h0]
    rfl
  · rw [h0]
    rfl
  · exact (c2_sibling_leaves_by_name
        [PlaylistNode.file 5 "b.mkv", PlaylistNode.file 2 "a.mp4"]).2
      _ (List.mem_cons_self _ _) 0 1 2 5 "a.mp4" "b.mkv" Nat.zero_lt_one
      (by rw [h0]; rfl) (by rw [h0]; rfl) (by decide)

/-- C4: in every sibling list of the sorted tree, directories precede leaves
regardless of names, and two directories with distinct titles appear in
byte-wise title order. -/
theorem c4_dirs_before_files_titles_sorted (ns : List PlaylistNode) :
    ∀ l ∈ forestSibLists (sortForest ns), ∀ (i j : Nat) (x y : PlaylistNode),
      i < j → l[i]? = some x → l[j]? = some y →
      ((∃ t2 cs2, y = PlaylistNode.dir t2 cs2) →
        ∃ t1 cs1, x = PlaylistNode.dir t1 cs1) ∧
      (∀ t1 cs1 t2 cs2, x = PlaylistNode.dir t1 cs1 → y = PlaylistNode.dir t2 cs2 →
        t1 ≠ t2 → strCmp t1 t2 = Ordering.lt) := by
  intro l hl i j x y hij hi hj
  have hpw := sortForest_pairwise ns l hl
  rw [List.pairwise_iff_getElem] at hpw
  obtain ⟨hiLen, hgi⟩ := List.getElem?_eq_some.mp hi
  obtain ⟨hjLen, hgj⟩ := List.getElem?_eq_some.mp hj
  have hrel := hpw i j hiLen hjLen hij
  rw [hgi, hgj, leP, nodeLe_iff] at hrel
  constructor
  · rintro ⟨t2, cs2, rfl⟩
    cases x with
    | dir t1 cs1 => exact ⟨t1, cs1, rfl⟩
    | file i1 n1 =>
      rw [pcmp] at hrel
      exact absurd rfl hrel
  · rintro t1 cs1 t2 cs2 rfl rfl hne
    rw [pcmp] at hrel
    cases h : strCmp t2 t1 with
    | lt => exact absurd (by rw [h]) hrel
    | eq => exact absurd (strCmp_eq_iff.mp h).symm hne
    | gt => exact strCmp_gt_iff.mp h

/-- Witness for C4: two directories and a leaf; after sorting the
directories come first, in title order. -/
theorem c4_dirs_before_files_titles_sorted_witness :
    ((0 : Nat) < 1) ∧
    (sortForest [PlaylistNode.dir "b" [], PlaylistNode.dir "a" [],
      PlaylistNode.file 0 "x.mkv"])[0]? = some (PlaylistNode.dir "a" []) ∧
    (sortForest [PlaylistNode.dir "b" [], PlaylistNode.dir "a" [],
      PlaylistNode.file 0 "x.mkv"])[1]? = some (PlaylistNode.dir "b" []) ∧
    (("a" : String) ≠ "b" → strCmp "a" "b" = Ordering.lt) := by
  have h1 : nodeLe (PlaylistNode.dir "b" []) (PlaylistNode.dir "a" []) = false := by decide
  have h2 : nodeLe (PlaylistNode.dir "a" []) (PlaylistNode.file 0 "x.mkv") = true := by decide
  have h3 : nodeLe (PlaylistNode.dir "b" []) (PlaylistNode.file 0 "x.mkv") = true := by decide
  have h0 : sortForest [PlaylistNode.dir "b" [], PlaylistNode.dir "a" [],
      PlaylistNode.file 0 "x.mkv"] =
      [PlaylistNode.dir "a" [], PlaylistNode.dir "b" [], PlaylistNode.file 0 "x.mkv"] := by
    rw [sortForest]
    have hms : List.mergeSort [PlaylistNode.dir "b" [], PlaylistNode.dir "a" [],
        PlaylistNode.file 0 "x.mkv"] nodeLe =
        [PlaylistNode.dir "a" [], PlaylistNode.dir "b" [], PlaylistNode.file 0 "x.mkv"] := by
      simp [List.mergeSort, List.merge, h1, h2, h3]
    rw [hms]
    simp [PlaylistNode.sort_file, PlaylistNode.sort_dir]
  refine ⟨Nat.zero_lt_one, ?_, ?_, ?_⟩
  · rw [h0]
    rfl
  · rw [h0]
    rfl
  · intro hne
    exact (c4_dirs_before_files_titles_sorted
        [PlaylistNode.dir "b" [], PlaylistNode.dir "a" [], PlaylistNode.file 0 "x.mkv"]
        _ (List.mem_cons_self _ _) 0 1 (PlaylistNode.dir "a" []) (PlaylistNode.dir "b" [])
        Nat.zero_lt_one (by rw [h0]; rfl) (by rw [h0]; rfl)).2
      "a" [] "b" [] rfl rfl hne

/-! ## Order-independence of the sorted shape (claim C3) -/

theorem shapeOf_dir (t : String) (ns : List PlaylistNode) :
    shapeOf (PlaylistNode.dir t ns) = NodeShape.dir t (shapeOfList ns) := by
  rw [shapeOf]

theorem shapeOf_file (i : Nat) (s : String) :
    shapeOf (PlaylistNode.file i s) = NodeShape.file s := by
  rw [shapeOf]

/-- The comparator transported to index-erased trees. -/
def spcmp : NodeShape → NodeShape → Option Ordering
  | .dir _ _, .file _ => some .lt
  | .file _, .dir _ _ => some .gt
  | .dir t1 _, .dir t2 _ => some (strCmp t1 t2)
  | .file p1, .file p2 => some (strCmp p1 p2)

def shapeLt (a b : NodeShape) : Bool := decide (spcmp a b = some Ordering.lt)

def shapeLe (a b : NodeShape) : Bool := !(shapeLt b a)

/-- The title of a directory shape, the file name of a leaf shape. -/
def shapeName : NodeShape → String
  | .dir t _ => t
  | .file n => n

theorem spcmp_shapeOf (a b : PlaylistNode) :
    spcmp (shapeOf a) (shapeOf b) = pcmp a b := by
  cases a <;> cases b <;> simp only [shapeOf_dir, shapeOf_file, spcmp, pcmp]

theorem shapeLe_shapeOf (a b : PlaylistNode) :
    shapeLe (shapeOf a) (shapeOf b) = nodeLe a b := by
  simp only [shapeLe, shapeLt, nodeLe, nodeLt, spcmp_shapeOf]

theorem shapeLe_iff {a b : NodeShape} :
    shapeLe a b = true ↔ ¬ spcmp b a = some Ordering.lt := by
  simp [shapeLe, shapeLt]

theorem spcmp_asymm {a b : NodeShape} (h1 : spcmp a b = some Ordering.lt)
    (h2 : spcmp b a = some Ordering.lt) : False := by
  cases a <;> cases b <;> simp [spcmp, strCmp] at h1 h2
  all_goals {
    have h3 := (lexCmp_gt_iff _ _).mpr h2
    rw [h1] at h3
    cases h3
  }

theorem shapeLe_total (a b : NodeShape) : (shapeLe a b || shapeLe b a) = true := by
  by_contra h
  simp [shapeLe, shapeLt] at h
  exact spcmp_asymm h.2 h.1

theorem shapeLe_trans (a b c : NodeShape) (h1 : shapeLe a b = true)
    (h2 : shapeLe b c = true) : shapeLe a c = true := by
  rw [shapeLe_iff] at h1 h2 ⊢
  intro hca
  cases a <;> cases b <;> cases c <;> simp [spcmp, strCmp] at h1 h2 hca ⊢
  all_goals exact lexCmp_negtrans hca h2 h1

theorem shapeLe_antisymm_name {a b : NodeShape} (h1 : shapeLe a b = true)
    (h2 : shapeLe b a = true) : shapeName a = shapeName b := by
  rw [shapeLe_iff] at h1 h2
  cases a <;> cases b <;> simp [spcmp, strCmp, shapeName] at h1 h2 ⊢
  all_goals {
    cases h : lexCmp _ _ with
    | lt => exact absurd h h2
    | eq => exact String.ext ((lexCmp_eq_iff _ _).mp h)
    | gt => exact absurd ((lexCmp_gt_iff _ _).mp h) h1
  }

theorem eq_of_perm_of_pairwise :
    ∀ (l1 l2 : List NodeShape), l1.Perm l2 →
      l1.Pairwise (fun a b => shapeLe a b = true) →
      l2.Pairwise (fun a b => shapeLe a b = true) →
      (∀ a ∈ l1, ∀ b ∈ l1, shapeLe a b = true → shapeLe b a = true → a = b) →
      l1 = l2 := by
  intro l1
  induction l1 with
  | nil =>
    intro l2 hp _ _ _
    exact hp.nil_eq
  | cons a t1 ih =>
    intro l2 hp h1 h2 hanti
    cases l2 with
    | nil => exact absurd hp.eq_nil (List.cons_ne_nil a t1)
    | cons b t2 =>
      by_cases hab : a = b
      · subst hab
        have hp' := hp.cons_inv
        rw [ih t2 hp' (List.pairwise_cons.mp h1).2 (List.pairwise_cons.mp h2).2 ?_]
        intro x hx y hy hxy hyx
        exact hanti x (List.mem_cons_of_mem _ hx) y (List.mem_cons_of_mem _ hy) hxy hyx
      · exfalso
        have hain : a ∈ b :: t2 := hp.subset (List.mem_cons_self _ _)
        have hat2 : a ∈ t2 := by
          rcases List.mem_cons.mp hain with h | h
          · exact absurd h hab
          · exact h
        have hbin : b ∈ a :: t1 := hp.symm.subset (List.mem_cons_self _ _)
        have hbt1 : b ∈ t1 := by
          rcases List.mem_cons.mp hbin with h | h
          · exact absurd h.symm hab
          · exact h
        have hle1 : shapeLe a b = true := (List.pairwise_cons.mp h1).1 b hbt1
        have hle2 : shapeLe b a = true := (List.pairwise_cons.mp h2).1 a hat2
        exact hab (hanti a (List.mem_cons_self _ _) b (List.mem_cons_of_mem _ hbt1) hle1 hle2)

theorem shapeOfList_eq_map : ∀ ns : List PlaylistNode, shapeOfList ns = ns.map shapeOf := by
  intro ns
  induction ns with
  | nil => rw [shapeOfList, List.map_nil]
  | cons n ns ih => rw [shapeOfList, List.map_cons, ih]

/-- Index erasure commutes with the recursive sort: the shapes of a sorted
forest are the merge-sort (for the shape comparator) of the sorted shapes. -/
theorem shapeMap_sortForest (ns : List PlaylistNode) :
    (sortForest ns).map shapeOf =
      (ns.map fun t => shapeOf (PlaylistNode.sort t)).mergeSort shapeLe := by
  rw [sortForest, List.map_map]
  exact List.map_mergeSort (fun a _ b _ => by
    simp only [Function.comp_apply, shapeLe_shapeOf, nodeLe_sort])

theorem shape_sort_dir (t : String) (cs : List PlaylistNode) :
    shapeOf (PlaylistNode.sort (PlaylistNode.dir t cs)) =
      NodeShape.dir t ((sortForest cs).map shapeOf) := by
  rw [PlaylistNode.sort_dir, shapeOf_dir, shapeOfList_eq_map, sortForest]

theorem shape_sort_file (i : Nat) (s : String) :
    shapeOf (PlaylistNode.sort (PlaylistNode.file i s)) = NodeShape.file s := by
  rw [PlaylistNode.sort_file, shapeOf_file]

/-- Merge-sorting two permuted shape lists whose members are pairwise
distinguished by the comparator gives the same list. -/
theorem mergeSort_shape_eq {L1 L2 : List NodeShape} (hp : L1.Perm L2)
    (hanti : ∀ a ∈ L1, ∀ b ∈ L1, shapeLe a b = true → shapeLe b a = true → a = b) :
    L1.mergeSort shapeLe = L2.mergeSort shapeLe := by
  have hperm : (L1.mergeSort shapeLe).Perm (L2.mergeSort shapeLe) :=
    ((List.mergeSort_perm L1 shapeLe).trans hp).trans
      (List.mergeSort_perm L2 shapeLe).symm
  refine eq_of_perm_of_pairwise _ _ hperm ?_ ?_ ?_
  · exact (List.sorted_mergeSort shapeLe_trans shapeLe_total L1).imp fun h => h
  · exact (List.sorted_mergeSort shapeLe_trans shapeLe_total L2).imp fun h => h
  · intro a ha b hb
    exact hanti a ((List.mergeSort_perm L1 shapeLe).mem_iff.mp ha)
      b ((List.mergeSort_perm L1 shapeLe).mem_iff.mp hb)

/-- Pointwise realization of a child list: if every child path realizes to
some tree satisfying `P`, the list realizer succeeds with a pointwise-related
output list. -/
theorem newList_pointwise {m : PendingNodeMap} {fuel : Nat}
    {P : FsPath → PlaylistNode → Prop} :
    ∀ cs : List FsPath, (∀ c ∈ cs, ∃ t, PlaylistNode.new m fuel c = some t ∧ P c t) →
      ∃ ts, PlaylistNode.newList m fuel cs = some ts ∧ List.Forall₂ P cs ts := by
  intro cs
  induction cs with
  | nil =>
    intro _
    exact ⟨[], by rw [PlaylistNode.newList], List.Forall₂.nil⟩
  | cons c cs ih =>
    intro hall
    obtain ⟨t, ht, hPt⟩ := hall c (List.mem_cons_self _ _)
    obtain ⟨ts, hts, hF⟩ := ih fun c' hc' => hall c' (List.mem_cons_of_mem _ hc')
    rw [PlaylistNode.newList, ht, hts]
    exact ⟨t :: ts, rfl, List.Forall₂.cons hPt hF⟩

theorem forall₂_map_eq {α β γ : Type} {g : α → γ} {h : β → γ} :
    ∀ {cs : List α} {ts : List β}, List.Forall₂ (fun c t => h t = g c) cs ts →
      ts.map h = cs.map g := by
  intro cs ts hF
  induction hF with
  | nil => rfl
  | cons hct _ ih => rw [List.map_cons, List.map_cons, hct, ih]

/-! Transfer of the run predicates along a permutation of the file list. -/

theorem isCreatedDir_perm {roots files1 files2 : List FsPath}
    (hp : files1.Perm files2) (q : FsPath) :
    IsCreatedDir roots files2 q ↔ IsCreatedDir roots files1 q := by
  unfold IsCreatedDir
  constructor
  · rintro ⟨f, hf, hvia⟩
    exact ⟨f, hp.mem_iff.mpr hf, hvia⟩
  · rintro ⟨f, hf, hvia⟩
    exact ⟨f, hp.mem_iff.mp hf, hvia⟩

theorem isChild_perm {roots files1 files2 : List FsPath}
    (hp : files1.Perm files2) (q c : FsPath) :
    IsChild roots files2 q c ↔ IsChild roots files1 q c := by
  unfold IsChild
  rw [hp.mem_iff, isCreatedDir_perm hp]

theorem saneRun_perm {roots files1 files2 : List FsPath}
    (hs : SaneRun roots files1) (hp : files1.Perm files2) : SaneRun roots files2 := by
  obtain ⟨h1, h2, h3, h4, h5⟩ := hs
  refine ⟨h1, hp.nodup_iff.mp h2, ?_, ?_, ?_⟩
  · intro f hf g hg
    exact h3 f (hp.mem_iff.mpr hf) g (hp.mem_iff.mpr hg)
  · intro f hf
    exact h4 f (hp.mem_iff.mpr hf)
  · intro f hf
    exact h5 f (hp.mem_iff.mpr hf)

/-- The index-erased sorted shape a child path realizes to (through the second
run's staging map); the default is never reached on the keys we use it at. -/
def childShape (m : PendingNodeMap) (fuel : Nat) (c : FsPath) : NodeShape :=
  ((PlaylistNode.new m fuel c).map fun t => shapeOf (PlaylistNode.sort t)).getD
    (NodeShape.file "")

/-- Two sane runs over the same roots differing only in the order of the
registered files realize, at every shared directory key, trees with the same
sorted shape. -/
theorem shape_spec {roots files1 files2 : List FsPath} (hs1 : SaneRun roots files1)
    (hp : files1.Perm files2)
    {m1 m2 : PendingNodeMap} (hinv1 : MapInv roots files1 m1)
    (hinv2 : MapInv roots files2 m2) :
    ∀ (fuel : Nat) (q : FsPath), (q ∈ roots ∨ IsCreatedDir roots files1 q) →
      0 < fuel → maxLen files1 < fuel + q.length →
      ∃ t1 t2, PlaylistNode.new m1 fuel q = some t1 ∧
        PlaylistNode.new m2 fuel q = some t2 ∧
        shapeOf (PlaylistNode.sort t1) = shapeOf (PlaylistNode.sort t2) := by
  intro fuel
  induction fuel with
  | zero =>
    intro q _ h0 _
    omega
  | succ fuel ih =>
    intro q hq _ hbound
    have hq2 : q ∈ roots ∨ IsCreatedDir roots files2 q := by
      rcases hq with h | h
      · exact Or.inl h
      · exact Or.inr ((isCreatedDir_perm hp q).mpr h)
    obtain ⟨cs1, hlk1, hcs1N, hcs1Mem⟩ : ∃ cs,
        lk m1.nodes q = some (PendingNode.dir
          (if q ∈ roots then rootTitle q else dirTitle q) cs) ∧
        cs.Nodup ∧ ∀ c, c ∈ cs ↔ IsChild roots files1 q c := by
      by_cases hqr : q ∈ roots
      · obtain ⟨cs, h1, h2, h3⟩ := hinv1.2.2.1 q hqr
        rw [if_pos hqr]
        exact ⟨cs, h1, h2, h3⟩
      · rcases hq with h | h
        · exact absurd h hqr
        · obtain ⟨cs, h1, h2, h3⟩ := hinv1.2.2.2.1 q hqr h
          rw [if_neg hqr]
          exact ⟨cs, h1, h2, h3⟩
    obtain ⟨cs2, hlk2, hcs2N, hcs2Mem0⟩ : ∃ cs,
        lk m2.nodes q = some (PendingNode.dir
          (if q ∈ roots then rootTitle q else dirTitle q) cs) ∧
        cs.Nodup ∧ ∀ c, c ∈ cs ↔ IsChild roots files2 q c := by
      by_cases hqr : q ∈ roots
      · obtain ⟨cs, h1, h2, h3⟩ := hinv2.2.2.1 q hqr
        rw [if_pos hqr]
        exact ⟨cs, h1, h2, h3⟩
      · rcases hq2 with h | h
        · exact absurd h hqr
        · obtain ⟨cs, h1, h2, h3⟩ := hinv2.2.2.2.1 q hqr h
          rw [if_neg hqr]
          exact ⟨cs, h1, h2, h3⟩
    have hcs2Mem : ∀ c, c ∈ cs2 ↔ IsChild roots files1 q c :=
      fun c => (hcs2Mem0 c).trans (isChild_perm hp q c)
    have hpermcs : cs1.Perm cs2 :=
      (List.perm_ext_iff_of_nodup hcs1N hcs2N).mpr
        (fun c => (hcs1Mem c).trans ((hcs2Mem c).symm))
    have hchild : ∀ c, IsChild roots files1 q c →
        (∃ t1, PlaylistNode.new m1 fuel c = some t1 ∧
          shapeOf (PlaylistNode.sort t1) = childShape m2 fuel c) ∧
        (∃ t2, PlaylistNode.new m2 fuel c = some t2 ∧
          shapeOf (PlaylistNode.sort t2) = childShape m2 fuel c) ∧
        (∃ nm, c.getLast? = some nm ∧ shapeName (childShape m2 fuel c) = nm) := by
      intro c hIsC
      have hcne : c ≠ [] := key_ne_nil hs1 hIsC.2.1
      have hclen : c.length = q.length + 1 := by
        have h1 := List.length_dropLast c
        rw [hIsC.1] at h1
        have := List.length_pos.mpr hcne
        omega
      have hclenle : c.length ≤ maxLen files1 := by
        rcases hIsC.2.1 with h | ⟨g, hg, hvia⟩
        · exact length_le_maxLen h
        · have h1 := sPre_length_lt hvia.1
          have h2 := length_le_maxLen hg
          omega
      have hfuel : 0 < fuel := by omega
      obtain ⟨nm, hnm⟩ := Option.isSome_iff_exists.mp
        (List.getLast?_isSome.mpr hcne)
      rcases hIsC.2.1 with hcf | hccre
      · obtain ⟨j1, hj1⟩ := List.getElem?_of_mem hcf
        obtain ⟨j2, hj2⟩ := List.getElem?_of_mem (hp.mem_iff.mp hcf)
        have hlkc1 := hinv1.2.1 j1 c hj1
        have hlkc2 := hinv2.2.1 j2 c hj2
        obtain ⟨k, hk⟩ := Nat.exists_eq_succ_of_ne_zero (Nat.pos_iff_ne_zero.mp hfuel)
        have hn1 : PlaylistNode.new m1 fuel c =
            some (PlaylistNode.file j1 (leafName c)) := by
          rw [hk, PlaylistNode.new, hlkc1]
        have hn2 : PlaylistNode.new m2 fuel c =
            some (PlaylistNode.file j2 (leafName c)) := by
          rw [hk, PlaylistNode.new, hlkc2]
        have hg : childShape m2 fuel c = NodeShape.file (leafName c) := by
          rw [childShape, hn2]
          simp [shape_sort_file]
        refine ⟨⟨_, hn1, ?_⟩, ⟨_, hn2, ?_⟩, ⟨nm, hnm, ?_⟩⟩
        · rw [shape_sort_file, hg]
        · rw [shape_sort_file, hg]
        · simp [hg, shapeName, leafName, hnm]
      · obtain ⟨t1, t2, h1, h2, hshape⟩ := ih c (Or.inr hccre) hfuel (by omega)
        have hg : childShape m2 fuel c = shapeOf (PlaylistNode.sort t2) := by
          rw [childShape, h2]
          rfl
        have hcr : c ∉ roots := hIsC.2.2
        have hc2cre : IsCreatedDir roots files2 c := (isCreatedDir_perm hp c).mpr hccre
        obtain ⟨csc, hlkc, hcscN, hcscMem⟩ := hinv2.2.2.2.1 c hcr hc2cre
        obtain ⟨k, hk⟩ := Nat.exists_eq_succ_of_ne_zero (Nat.pos_iff_ne_zero.mp hfuel)
        have h2m := h2
        rw [hk, PlaylistNode.new] at h2m
        simp only [hlkc] at h2m
        have hname : shapeName (shapeOf (PlaylistNode.sort t2)) = dirTitle c := by
          cases hnl : PlaylistNode.newList m2 k csc with
          | none =>
            rw [hnl] at h2m
            simp at h2m
          | some ns =>
            rw [hnl] at h2m
            simp only [Option.some.injEq] at h2m
            rw [← h2m, shape_sort_dir]
            simp [shapeName]
        refine ⟨⟨t1, h1, ?_⟩, ⟨t2, h2, hg.symm⟩, ⟨nm, hnm, ?_⟩⟩
        · rw [hg, hshape]
        · simp [hg, hname, dirTitle, hnm]
    obtain ⟨ts1, hts1, hF1⟩ := newList_pointwise cs1
      (fun c hc => (hchild c ((hcs1Mem c).mp hc)).1)
    obtain ⟨ts2, hts2, hF2⟩ := newList_pointwise cs2
      (fun c hc => (hchild c ((hcs2Mem c).mp hc)).2.1)
    refine ⟨PlaylistNode.dir (if q ∈ roots then rootTitle q else dirTitle q) ts1,
      PlaylistNode.dir (if q ∈ roots then rootTitle q else dirTitle q) ts2, ?_, ?_, ?_⟩
    · rw [PlaylistNode.new]
      simp only [hlk1, hts1]
    · rw [PlaylistNode.new]
      simp only [hlk2, hts2]
    · rw [shape_sort_dir, shape_sort_dir, shapeMap_sortForest, shapeMap_sortForest]
      have hm1 : ts1.map (fun t => shapeOf (PlaylistNode.sort t)) =
          cs1.map (childShape m2 fuel) := forall₂_map_eq hF1
      have hm2 : ts2.map (fun t => shapeOf (PlaylistNode.sort t)) =
          cs2.map (childShape m2 fuel) := forall₂_map_eq hF2
      rw [hm1, hm2]
      congr 1
      apply mergeSort_shape_eq (hpermcs.map (childShape m2 fuel))
      intro a ha b hb hab hba
      obtain ⟨c, hc, rfl⟩ := List.mem_map.mp ha
      obtain ⟨c', hc', rfl⟩ := List.mem_map.mp hb
      obtain ⟨nm, hnm, hgnm⟩ := (hchild c ((hcs1Mem c).mp hc)).2.2
      obtain ⟨nm', hnm', hgnm'⟩ := (hchild c' ((hcs1Mem c').mp hc')).2.2
      have hname := shapeLe_antisymm_name hab hba
      rw [hgnm, hgnm'] at hname
      have hceq : c = c' := by
        have e1 : c.dropLast ++ [nm] = c := List.dropLast_append_getLast? nm hnm
        have e2 : c'.dropLast ++ [nm'] = c' := List.dropLast_append_getLast? nm' hnm'
        rw [← e1, ← e2, ((hcs1Mem c).mp hc).1, ((hcs1Mem c').mp hc').1, hname]
      rw [hceq]

/-- C3: feeding a sane run's accepted files to the builder in any permutation
of walk order, then realizing and sorting, yields the same sorted tree up to
the index values in the leaves: the index-erased shapes (node kinds, directory
titles and leaf file names, at every level and in sibling order) coincide. -/
theorem c3_sorted_shape_order_independent (roots files1 files2 : List FsPath)
    (hs1 : SaneRun roots files1) (hp : files1.Perm files2) :
    ∃ m1 m2 ns1 ns2,
      pushFiles (PendingNodeMap.new roots) files1 0 = some m1 ∧
      pushFiles (PendingNodeMap.new roots) files2 0 = some m2 ∧
      m1.into_nodes (maxLen files1 + 1) = some ns1 ∧
      m2.into_nodes (maxLen files1 + 1) = some ns2 ∧
      (sortForest ns1).map shapeOf = (sortForest ns2).map shapeOf := by
  obtain ⟨m1, hm1, hinv1⟩ := mapInv_run hs1
  obtain ⟨m2, hm2, hinv2⟩ := mapInv_run (saneRun_perm hs1 hp)
  have hroot : ∀ r ∈ roots,
      (∃ t1, PlaylistNode.new m1 (maxLen files1 + 1) r = some t1 ∧
        shapeOf (PlaylistNode.sort t1) = childShape m2 (maxLen files1 + 1) r) ∧
      (∃ t2, PlaylistNode.new m2 (maxLen files1 + 1) r = some t2 ∧
        shapeOf (PlaylistNode.sort t2) = childShape m2 (maxLen files1 + 1) r) := by
    intro r hr
    obtain ⟨t1, t2, h1, h2, hsh⟩ := shape_spec hs1 hp hinv1 hinv2 (maxLen files1 + 1) r
      (Or.inl hr) (Nat.succ_pos _) (by omega)
    have hg : childShape m2 (maxLen files1 + 1) r = shapeOf (PlaylistNode.sort t2) := by
      rw [childShape, h2]
      rfl
    exact ⟨⟨t1, h1, by rw [hg, hsh]⟩, ⟨t2, h2, hg.symm⟩⟩
  obtain ⟨ns1, hns1, hF1⟩ := newList_pointwise roots (fun r hr => (hroot r hr).1)
  obtain ⟨ns2, hns2, hF2⟩ := newList_pointwise roots (fun r hr => (hroot r hr).2)
  refine ⟨m1, m2, ns1, ns2, hm1, hm2, ?_, ?_, ?_⟩
  · rw [PendingNodeMap.into_nodes, hinv1.1, hns1]
  · rw [PendingNodeMap.into_nodes, hinv2.1, hns2]
  · rw [shapeMap_sortForest, shapeMap_sortForest, forall₂_map_eq hF1, forall₂_map_eq hF2]

theorem c3_sorted_shape_order_independent_witness :
    SaneRun [["r"]] [["r", "b"], ["r", "a"]] ∧
    List.Perm [["r", "b"], ["r", "a"]] [["r", "a"], ["r", "b"]] ∧
    (∃ m1 m2 ns1 ns2,
      pushFiles (PendingNodeMap.new [["r"]]) [["r", "b"], ["r", "a"]] 0 = some m1 ∧
      pushFiles (PendingNodeMap.new [["r"]]) [["r", "a"], ["r", "b"]] 0 = some m2 ∧
      m1.into_nodes (maxLen [["r", "b"], ["r", "a"]] + 1) = some ns1 ∧
      m2.into_nodes (maxLen [["r", "b"], ["r", "a"]] + 1) = some ns2 ∧
      (sortForest ns1).map shapeOf = (sortForest ns2).map shapeOf) :=
  ⟨by decide, by decide,
    c3_sorted_shape_order_independent _ _ _ (by decide) (by decide)⟩

/-- C5: a file entry with a recognized extension whose metadata probe returns
no track is skipped silently: the filter verdict is `false` and both the track
registry and the staging map come back exactly unchanged, so the file enters
neither the registry nor the tree and no ancestor directory is created for
it. -/
theorem c5_failed_probe_leaves_state_unchanged
    (skip : List FsPath) (mkv_meta mp4_meta : FsPath → Option Track)
    (tracks : List Track) (nodes : PendingNodeMap) (entry : DirEntry)
    (meta : EntryMeta) (hm : entry.meta = some meta) (hf : meta.is_file = true)
    (ext : String) (hext : extension entry.path = some ext)
    (hprobe : (ext = "mkv" ∧ mkv_meta entry.path = none) ∨
      (ext = "mp4" ∧ mp4_meta entry.path = none)) :
    filter skip mkv_meta mp4_meta tracks nodes entry =
      some (false, tracks, nodes) := by
  rcases hprobe with ⟨rfl, hpn⟩ | ⟨rfl, hpn⟩
  · simp [filter, hm, hf, hext, hpn]
  · simp [filter, hm, hf, hext, hpn]

theorem c5_failed_probe_leaves_state_unchanged_witness :
    (⟨["r", "x.mkv"], some ⟨true, false⟩⟩ : DirEntry).meta = some ⟨true, false⟩ ∧
    (⟨true, false⟩ : EntryMeta).is_file = true ∧
    extension (⟨["r", "x.mkv"], some ⟨true, false⟩⟩ : DirEntry).path = some "mkv" ∧
    ((("mkv" : String) = "mkv" ∧ (fun _ : FsPath => (none : Option Track))
        ["r", "x.mkv"] = none) ∨
      (("mkv" : String) = "mp4" ∧ (fun _ : FsPath => (none : Option Track))
        ["r", "x.mkv"] = none)) ∧
    filter [] (fun _ => none) (fun _ => none) [] (PendingNodeMap.new [["r"]])
      ⟨["r", "x.mkv"], some ⟨true, false⟩⟩ =
      some (false, [], PendingNodeMap.new [["r"]]) :=
  ⟨rfl, rfl, by decide, Or.inl ⟨rfl, rfl⟩,
    c5_failed_probe_leaves_state_unchanged [] _ _ [] (PendingNodeMap.new [["r"]])
      ⟨["r", "x.mkv"], some ⟨true, false⟩⟩ ⟨true, false⟩ rfl rfl "mkv" (by decide)
      (Or.inl ⟨rfl, rfl⟩)⟩

/-! ## Track elements and vlc:id density in the serialized document (claim C6) -/

theorem tab_lt_eq : ∀ (j k : Nat) (r1 r2 : List Char),
    List.replicate j '\t' ++ '<' :: r1 = List.replicate k '\t' ++ '<' :: r2 →
    j = k ∧ r1 = r2 := by
  intro j
  induction j with
  | zero =>
    intro k r1 r2 h
    cases k with
    | zero =>
      simp only [List.replicate_zero, List.nil_append, List.cons.injEq] at h
      exact ⟨rfl, h.2⟩
    | succ k =>
      simp only [List.replicate_zero, List.nil_append, List.replicate_succ,
        List.cons_append, List.cons.injEq] at h
      exact absurd h.1 (by decide)
  | succ j ih =>
    intro k r1 r2 h
    cases k with
    | zero =>
      simp only [List.replicate_succ, List.cons_append, List.replicate_zero,
        List.nil_append, List.cons.injEq] at h
      exact absurd h.1 (by decide)
    | succ k =>
      simp only [List.replicate_succ, List.cons_append, List.cons.injEq] at h
      obtain ⟨je, re⟩ := ih k r1 r2 h.2
      exact ⟨by omega, re⟩

theorem tab_lt_prefix : ∀ (j k : Nat) (r1 r2 : List Char),
    (List.replicate j '\t' ++ '<' :: r1) <+: (List.replicate k '\t' ++ '<' :: r2) →
    j = k ∧ r1 <+: r2 := by
  intro j
  induction j with
  | zero =>
    intro k r1 r2 h
    cases k with
    | zero =>
      simp only [List.replicate_zero, List.nil_append, List.cons_prefix_cons] at h
      exact ⟨rfl, h.2⟩
    | succ k =>
      simp only [List.replicate_zero, List.nil_append, List.replicate_succ,
        List.cons_append, List.cons_prefix_cons] at h
      exact absurd h.1 (by decide)
  | succ j ih =>
    intro k r1 r2 h
    cases k with
    | zero =>
      simp only [List.replicate_succ, List.cons_append, List.replicate_zero,
        List.nil_append, List.cons_prefix_cons] at h
      exact absurd h.1 (by decide)
    | succ k =>
      simp only [List.replicate_succ, List.cons_append, List.cons_prefix_cons] at h
      obtain ⟨je, re⟩ := ih k r1 r2 h.2
      exact ⟨by omega, re⟩

theorem flatMap_single {α β : Type} (l : List α) (g : α → β) :
    (l.flatMap fun x => [g x]) = l.map g := by
  induction l with
  | nil => rfl
  | cons a t ih => simp [List.flatMap_cons, ih]

/-- Every line emitted by `nodes_into_xml` is some number of tabs followed by
a `vlc:item` element, a `vlc:node` opening tag, or a `vlc:node` closing tag. -/
theorem nodes_lines_shape :
    ∀ (N : Nat) (ns : List PlaylistNode), sizeOf ns ≤ N → ∀ (indent : Nat),
      ∀ l ∈ nodes_into_xml indent ns, ∃ n,
        (∃ x, l = tabs n ++ "<vlc:item tid=\"" ++ x ++ "\"/>") ∨
        (∃ t, l = tabs n ++ "<vlc:node title=\"" ++ t ++ "\">") ∨
        l = tabs n ++ "</vlc:node>" := by
  intro N
  induction N with
  | zero =>
    intro ns hs indent l hl
    cases ns with
    | nil =>
      rw [nodes_into_xml] at hl
      cases hl
    | cons x rest =>
      cases x with
      | file i s =>
        simp only [List.cons.sizeOf_spec, PlaylistNode.file.sizeOf_spec] at hs
        omega
      | dir t cs =>
        simp only [List.cons.sizeOf_spec, PlaylistNode.dir.sizeOf_spec] at hs
        omega
  | succ N ih =>
    intro ns hs indent l hl
    cases ns with
    | nil =>
      rw [nodes_into_xml] at hl
      cases hl
    | cons x rest =>
      cases x with
      | file idx s =>
        rw [nodes_into_xml] at hl
        rcases List.mem_cons.mp hl with rfl | hl
        · exact ⟨indent, Or.inl ⟨Nat.repr idx, rfl⟩⟩
        · refine ih rest ?_ indent l hl
          simp only [List.cons.sizeOf_spec, PlaylistNode.file.sizeOf_spec] at hs
          omega
      | dir t cs =>
        rw [nodes_into_xml] at hl
        rcases List.mem_append.mp hl with hl | hl
        · rcases List.mem_cons.mp hl with rfl | hl
          · exact ⟨indent, Or.inr (Or.inl ⟨t, rfl⟩)⟩
          · refine ih cs ?_ (indent + 1) l hl
            simp only [List.cons.sizeOf_spec, PlaylistNode.dir.sizeOf_spec] at hs
            omega
        · rcases List.mem_cons.mp hl with rfl | hl
          · exact ⟨indent, Or.inr (Or.inr rfl)⟩
          · refine ih rest ?_ indent l hl
            simp only [List.cons.sizeOf_spec, PlaylistNode.dir.sizeOf_spec] at hs
            omega

theorem item_ne_track (n : Nat) (x : String) :
    tabs n ++ "<vlc:item tid=\"" ++ x ++ "\"/>" ≠ "\t\t" ++ TRACK_START_TAG := by
  intro h
  have hd := congrArg String.data h
  simp only [String.data_append, List.append_assoc,
    show (tabs n).data = List.replicate n '\t' from rfl,
    show ("<vlc:item tid=\"" : String).data =
      '<' :: ['v','l','c',':','i','t','e','m',' ','t','i','d','=','"'] from rfl,
    show ("\t\t" : String).data = List.replicate 2 '\t' from rfl,
    show TRACK_START_TAG.data = '<' :: ['t','r','a','c','k','>'] from rfl,
    List.cons_append, List.nil_append] at hd
  obtain ⟨-, htl⟩ := tab_lt_eq n 2 _ _ hd
  injection htl with h1 _
  exact absurd h1 (by decide)

theorem node_ne_track (n : Nat) (t : String) :
    tabs n ++ "<vlc:node title=\"" ++ t ++ "\">" ≠ "\t\t" ++ TRACK_START_TAG := by
  intro h
  have hd := congrArg String.data h
  simp only [String.data_append, List.append_assoc,
    show (tabs n).data = List.replicate n '\t' from rfl,
    show ("<vlc:node title=\"" : String).data =
      '<' :: ['v','l','c',':','n','o','d','e',' ','t','i','t','l','e','=','"'] from rfl,
    show ("\t\t" : String).data = List.replicate 2 '\t' from rfl,
    show TRACK_START_TAG.data = '<' :: ['t','r','a','c','k','>'] from rfl,
    List.cons_append, List.nil_append] at hd
  obtain ⟨-, htl⟩ := tab_lt_eq n 2 _ _ hd
  injection htl with h1 _
  exact absurd h1 (by decide)

theorem close_ne_track (n : Nat) :
    tabs n ++ "</vlc:node>" ≠ "\t\t" ++ TRACK_START_TAG := by
  intro h
  have hd := congrArg String.data h
  simp only [String.data_append, List.append_assoc,
    show (tabs n).data = List.replicate n '\t' from rfl,
    show ("</vlc:node>" : String).data =
      '<' :: ['/','v','l','c',':','n','o','d','e','>'] from rfl,
    show ("\t\t" : String).data = List.replicate 2 '\t' from rfl,
    show TRACK_START_TAG.data = '<' :: ['t','r','a','c','k','>'] from rfl,
    List.cons_append, List.nil_append] at hd
  obtain ⟨-, htl⟩ := tab_lt_eq n 2 _ _ hd
  injection htl with h1 _
  exact absurd h1 (by decide)

theorem loc_ne_track (x : String) :
    "\t\t\t" ++ LOCATION_START_TAG ++ "file://" ++ x ++ LOCATION_END_TAG ≠
      "\t\t" ++ TRACK_START_TAG := by
  intro h
  have hd := congrArg String.data h
  simp only [String.data_append, List.append_assoc,
    show ("\t\t\t" : String).data = ['\t','\t','\t'] from rfl,
    show LOCATION_START_TAG.data = ['<','l','o','c','a','t','i','o','n','>'] from rfl,
    show ("\t\t" : String).data = ['\t','\t'] from rfl,
    show TRACK_START_TAG.data = ['<','t','r','a','c','k','>'] from rfl,
    List.cons_append, List.nil_append, List.cons.injEq] at hd
  exact absurd hd.2.2.1 (by decide)

theorem title_ne_track (x : String) :
    "\t\t\t" ++ TITLE_START_TAG ++ x ++ TITLE_END_TAG ≠ "\t\t" ++ TRACK_START_TAG := by
  intro h
  have hd := congrArg String.data h
  simp only [String.data_append, List.append_assoc,
    show ("\t\t\t" : String).data = ['\t','\t','\t'] from rfl,
    show TITLE_START_TAG.data = ['<','t','i','t','l','e','>'] from rfl,
    show ("\t\t" : String).data = ['\t','\t'] from rfl,
    show TRACK_START_TAG.data = ['<','t','r','a','c','k','>'] from rfl,
    List.cons_append, List.nil_append, List.cons.injEq] at hd
  exact absurd hd.2.2.1 (by decide)

theorem dur_ne_track (x : String) :
    "\t\t\t" ++ DURATION_START_TAG ++ x ++ DURATION_END_TAG ≠
      "\t\t" ++ TRACK_START_TAG := by
  intro h
  have hd := congrArg String.data h
  simp only [String.data_append, List.append_assoc,
    show ("\t\t\t" : String).data = ['\t','\t','\t'] from rfl,
    show DURATION_START_TAG.data = ['<','d','u','r','a','t','i','o','n','>'] from rfl,
    show ("\t\t" : String).data = ['\t','\t'] from rfl,
    show TRACK_START_TAG.data = ['<','t','r','a','c','k','>'] from rfl,
    List.cons_append, List.nil_append, List.cons.injEq] at hd
  exact absurd hd.2.2.1 (by decide)

theorem idline_ne_track (x : String) :
    "\t\t\t\t" ++ VLC_ID_START_TAG ++ x ++ VLC_ID_END_TAG ≠
      "\t\t" ++ TRACK_START_TAG := by
  intro h
  have hd := congrArg String.data h
  simp only [String.data_append, List.append_assoc,
    show ("\t\t\t\t" : String).data = ['\t','\t','\t','\t'] from rfl,
    show VLC_ID_START_TAG.data = ['<','v','l','c',':','i','d','>'] from rfl,
    show ("\t\t" : String).data = ['\t','\t'] from rfl,
    show TRACK_START_TAG.data = ['<','t','r','a','c','k','>'] from rfl,
    List.cons_append, List.nil_append, List.cons.injEq] at hd
  exact absurd hd.2.2.1 (by decide)

theorem item_no_idpre (n : Nat) (x : String) :
    ("\t\t\t\t" ++ VLC_ID_START_TAG).data.isPrefixOf
      (tabs n ++ "<vlc:item tid=\"" ++ x ++ "\"/>").data = false := by
  rw [Bool.eq_false_iff, Ne, List.isPrefixOf_iff_prefix]
  intro h
  rw [show ("\t\t\t\t" ++ VLC_ID_START_TAG).data =
    List.replicate 4 '\t' ++ '<' :: ['v','l','c',':','i','d','>'] from rfl] at h
  simp only [String.data_append, List.append_assoc,
    show (tabs n).data = List.replicate n '\t' from rfl,
    show ("<vlc:item tid=\"" : String).data =
      '<' :: ['v','l','c',':','i','t','e','m',' ','t','i','d','=','"'] from rfl,
    List.cons_append, List.nil_append] at h
  obtain ⟨-, hp⟩ := tab_lt_prefix 4 n _ _ h
  simp only [List.cons_prefix_cons] at hp
  exact absurd hp.2.2.2.2.2.1 (by decide)

theorem node_no_idpre (n : Nat) (t : String) :
    ("\t\t\t\t" ++ VLC_ID_START_TAG).data.isPrefixOf
      (tabs n ++ "<vlc:node title=\"" ++ t ++ "\">").data = false := by
  rw [Bool.eq_false_iff, Ne, List.isPrefixOf_iff_prefix]
  intro h
  rw [show ("\t\t\t\t" ++ VLC_ID_START_TAG).data =
    List.replicate 4 '\t' ++ '<' :: ['v','l','c',':','i','d','>'] from rfl] at h
  simp only [String.data_append, List.append_assoc,
    show (tabs n).data = List.replicate n '\t' from rfl,
    show ("<vlc:node title=\"" : String).data =
      '<' :: ['v','l','c',':','n','o','d','e',' ','t','i','t','l','e','=','"'] from rfl,
    List.cons_append, List.nil_append] at h
  obtain ⟨-, hp⟩ := tab_lt_prefix 4 n _ _ h
  simp only [List.cons_prefix_cons] at hp
  exact absurd hp.2.2.2.2.1 (by decide)

theorem close_no_idpre (n : Nat) :
    ("\t\t\t\t" ++ VLC_ID_START_TAG).data.isPrefixOf
      (tabs n ++ "</vlc:node>").data = false := by
  rw [Bool.eq_false_iff, Ne, List.isPrefixOf_iff_prefix]
  intro h
  rw [show ("\t\t\t\t" ++ VLC_ID_START_TAG).data =
    List.replicate 4 '\t' ++ '<' :: ['v','l','c',':','i','d','>'] from rfl] at h
  simp only [String.data_append, List.append_assoc,
    show (tabs n).data = List.replicate n '\t' from rfl,
    show ("</vlc:node>" : String).data =
      '<' :: ['/','v','l','c',':','n','o','d','e','>'] from rfl,
    List.cons_append, List.nil_append] at h
  obtain ⟨-, hp⟩ := tab_lt_prefix 4 n _ _ h
  simp only [List.cons_prefix_cons] at hp
  exact absurd hp.1 (by decide)

theorem loc_no_idpre (x : String) :
    ("\t\t\t\t" ++ VLC_ID_START_TAG).data.isPrefixOf
      ("\t\t\t" ++ LOCATION_START_TAG ++ "file://" ++ x ++ LOCATION_END_TAG).data =
      false := by
  rw [Bool.eq_false_iff, Ne, List.isPrefixOf_iff_prefix]
  intro h
  rw [show ("\t\t\t\t" ++ VLC_ID_START_TAG).data =
    List.replicate 4 '\t' ++ '<' :: ['v','l','c',':','i','d','>'] from rfl] at h
  simp only [String.data_append, List.append_assoc,
    show ("\t\t\t" : String).data = List.replicate 3 '\t' from rfl,
    show LOCATION_START_TAG.data = '<' :: ['l','o','c','a','t','i','o','n','>'] from rfl,
    List.cons_append, List.nil_append] at h
  obtain ⟨h43, -⟩ := tab_lt_prefix 4 3 _ _ h
  omega

theorem title_no_idpre (x : String) :
    ("\t\t\t\t" ++ VLC_ID_START_TAG).data.isPrefixOf
      ("\t\t\t" ++ TITLE_START_TAG ++ x ++ TITLE_END_TAG).data = false := by
  rw [Bool.eq_false_iff, Ne, List.isPrefixOf_iff_prefix]
  intro h
  rw [show ("\t\t\t\t" ++ VLC_ID_START_TAG).data =
    List.replicate 4 '\t' ++ '<' :: ['v','l','c',':','i','d','>'] from rfl] at h
  simp only [String.data_append, List.append_assoc,
    show ("\t\t\t" : String).data = List.replicate 3 '\t' from rfl,
    show TITLE_START_TAG.data = '<' :: ['t','i','t','l','e','>'] from rfl,
    List.cons_append, List.nil_append] at h
  obtain ⟨h43, -⟩ := tab_lt_prefix 4 3 _ _ h
  omega

theorem dur_no_idpre (x : String) :
    ("\t\t\t\t" ++ VLC_ID_START_TAG).data.isPrefixOf
      ("\t\t\t" ++ DURATION_START_TAG ++ x ++ DURATION_END_TAG).data = false := by
  rw [Bool.eq_false_iff, Ne, List.isPrefixOf_iff_prefix]
  intro h
  rw [show ("\t\t\t\t" ++ VLC_ID_START_TAG).data =
    List.replicate 4 '\t' ++ '<' :: ['v','l','c',':','i','d','>'] from rfl] at h
  simp only [String.data_append, List.append_assoc,
    show ("\t\t\t" : String).data = List.replicate 3 '\t' from rfl,
    show DURATION_START_TAG.data = '<' :: ['d','u','r','a','t','i','o','n','>'] from rfl,
    List.cons_append, List.nil_append] at h
  obtain ⟨h43, -⟩ := tab_lt_prefix 4 3 _ _ h
  omega

theorem idline_has_idpre (x : String) :
    ("\t\t\t\t" ++ VLC_ID_START_TAG).data.isPrefixOf
      ("\t\t\t\t" ++ VLC_ID_START_TAG ++ x ++ VLC_ID_END_TAG).data = true := by
  rw [List.isPrefixOf_iff_prefix,
    show ("\t\t\t\t" ++ VLC_ID_START_TAG ++ x ++ VLC_ID_END_TAG) =
      ("\t\t\t\t" ++ VLC_ID_START_TAG) ++ (x ++ VLC_ID_END_TAG) from
      String.append_assoc _ _ _,
    String.data_append]
  exact List.prefix_append _ _

theorem nodes_filter_track (indent : Nat) (ns : List PlaylistNode) :
    (nodes_into_xml indent ns).filter
      (fun s => decide (s = "\t\t" ++ TRACK_START_TAG)) = [] := by
  rw [List.filter_eq_nil_iff]
  intro l hl
  obtain ⟨n, hsh⟩ := nodes_lines_shape (sizeOf ns) ns (Nat.le_refl _) indent l hl
  simp only [decide_eq_true_eq]
  rcases hsh with ⟨x, rfl⟩ | ⟨t, rfl⟩ | rfl
  · exact item_ne_track n x
  · exact node_ne_track n t
  · exact close_ne_track n

theorem nodes_filter_id (indent : Nat) (ns : List PlaylistNode) :
    (nodes_into_xml indent ns).filter
      (fun s => ("\t\t\t\t" ++ VLC_ID_START_TAG).data.isPrefixOf s.data) = [] := by
  rw [List.filter_eq_nil_iff]
  intro l hl
  obtain ⟨n, hsh⟩ := nodes_lines_shape (sizeOf ns) ns (Nat.le_refl _) indent l hl
  rcases hsh with ⟨x, rfl⟩ | ⟨t, rfl⟩ | rfl
  · simp only [item_no_idpre n x]
    exact Bool.false_ne_true
  · simp only [node_no_idpre n t]
    exact Bool.false_ne_true
  · simp only [close_no_idpre n]
    exact Bool.false_ne_true

theorem trackLines_filter_track (i : Nat) (t : Track) :
    (trackLines i t).filter (fun s => decide (s = "\t\t" ++ TRACK_START_TAG)) =
      ["\t\t" ++ TRACK_START_TAG] := by
  have e5 : ("\t\t\t" ++ EXTENSION_START_TAG) ≠ ("\t\t" ++ TRACK_START_TAG) := by decide
  have e7 : ("\t\t\t" ++ EXTENSION_END_TAG) ≠ ("\t\t" ++ TRACK_START_TAG) := by decide
  have e8 : ("\t\t" ++ TRACK_END_TAG) ≠ ("\t\t" ++ TRACK_START_TAG) := by decide
  simp [trackLines, List.filter_cons, List.filter_nil,
    decide_eq_false (loc_ne_track _), decide_eq_false (title_ne_track _),
    decide_eq_false (dur_ne_track _), decide_eq_false (idline_ne_track _),
    decide_eq_false e5, decide_eq_false e7, decide_eq_false e8]

theorem trackLines_filter_id (i : Nat) (t : Track) :
    (trackLines i t).filter
      (fun s => ("\t\t\t\t" ++ VLC_ID_START_TAG).data.isPrefixOf s.data) =
      ["\t\t\t\t" ++ VLC_ID_START_TAG ++ Nat.repr i ++ VLC_ID_END_TAG] := by
  have e1 : ("\t\t\t\t" ++ VLC_ID_START_TAG).data.isPrefixOf
      ("\t\t" ++ TRACK_START_TAG).data = false := by decide
  have e5 : ("\t\t\t\t" ++ VLC_ID_START_TAG).data.isPrefixOf
      ("\t\t\t" ++ EXTENSION_START_TAG).data = false := by decide
  have e7 : ("\t\t\t\t" ++ VLC_ID_START_TAG).data.isPrefixOf
      ("\t\t\t" ++ EXTENSION_END_TAG).data = false := by decide
  have e8 : ("\t\t\t\t" ++ VLC_ID_START_TAG).data.isPrefixOf
      ("\t\t" ++ TRACK_END_TAG).data = false := by decide
  simp only [trackLines, List.filter_cons, List.filter_nil, e1, e5, e7, e8,
    loc_no_idpre, title_no_idpre, dur_no_idpre, idline_has_idpre]
  simp

/-- C6: the serializer emits exactly one `<track>` element per registry entry
(one opening line per entry, nothing else in the document matches it), and the
`vlc:id` lines of the document, in document order, carry exactly the indices
`0 .. N-1`: the i-th track element (registry order) holds `vlc:id` equal to
`i`, so the emitted ids are unique and dense. -/
theorem c6_track_elements_registry_order (playlist : Playlist) :
    ((into_xml playlist).filter fun s => decide (s = "\t\t" ++ TRACK_START_TAG)) =
      List.replicate playlist.track_list.tracks.length ("\t\t" ++ TRACK_START_TAG) ∧
    ((into_xml playlist).filter fun s =>
        ("\t\t\t\t" ++ VLC_ID_START_TAG).data.isPrefixOf s.data) =
      (List.range playlist.track_list.tracks.length).map fun i =>
        "\t\t\t\t" ++ VLC_ID_START_TAG ++ Nat.repr i ++ VLC_ID_END_TAG := by
  constructor
  · rw [into_xml]
    simp only [List.filter_append]
    rw [show List.filter (fun s => decide (s = "\t\t" ++ TRACK_START_TAG))
        [XML_HEADER, PLAYLIST_START_TAG,
          "\t" ++ TITLE_START_TAG ++ "Media Library" ++ TITLE_END_TAG,
          "\t" ++ TRACKLIST_START_TAG] = [] from by decide]
    rw [show List.filter (fun s => decide (s = "\t\t" ++ TRACK_START_TAG))
        ["\t" ++ TRACKLIST_END_TAG, "\t" ++ EXTENSION_START_TAG] = [] from by decide]
    rw [show List.filter (fun s => decide (s = "\t\t" ++ TRACK_START_TAG))
        ["\t" ++ EXTENSION_END_TAG, PLAYLIST_END_TAG] = [] from by decide]
    rw [List.filter_flatMap, nodes_filter_track]
    simp only [trackLines_filter_track]
    rw [flatMap_single, List.map_const', List.enum_length]
    simp
  · rw [into_xml]
    simp only [List.filter_append]
    rw [show List.filter
        (fun s => ("\t\t\t\t" ++ VLC_ID_START_TAG).data.isPrefixOf s.data)
        [XML_HEADER, PLAYLIST_START_TAG,
          "\t" ++ TITLE_START_TAG ++ "Media Library" ++ TITLE_END_TAG,
          "\t" ++ TRACKLIST_START_TAG] = [] from by decide]
    rw [show List.filter
        (fun s => ("\t\t\t\t" ++ VLC_ID_START_TAG).data.isPrefixOf s.data)
        ["\t" ++ TRACKLIST_END_TAG, "\t" ++ EXTENSION_START_TAG] = [] from by decide]
    rw [show List.filter
        (fun s => ("\t\t\t\t" ++ VLC_ID_START_TAG).data.isPrefixOf s.data)
        ["\t" ++ EXTENSION_END_TAG, PLAYLIST_END_TAG] = [] from by decide]
    rw [List.filter_flatMap, nodes_filter_id]
    simp only [trackLines_filter_id]
    rw [flatMap_single]
    have hmm : playlist.track_list.tracks.enum.map
        (fun p => "\t\t\t\t" ++ VLC_ID_START_TAG ++ Nat.repr p.1 ++ VLC_ID_END_TAG) =
        (playlist.track_list.tracks.enum.map Prod.fst).map
          (fun i => "\t\t\t\t" ++ VLC_ID_START_TAG ++ Nat.repr i ++ VLC_ID_END_TAG) := by
      rw [List.map_map]
      rfl
    rw [hmm, List.enum_map_fst]
    simp

/-! ## Percent-encoding of the location URI (claim C7) -/

/-- C7 (divergence): the serializer applies `url_escape::encode_component` to
the whole path string, not to its segments individually, so the `/` separators
are emitted percent-encoded as `%2F`: for the track `/home/a b.mkv` the
location line contains `file://%2Fhome%2Fa%20b.mkv`, with no `/` at all in the
encoded path (the path string itself has two). -/
theorem c7_location_separators_encoded :
    url_escape.encode_component (pathString ["home", "a b.mkv"]) =
      "%2Fhome%2Fa%20b.mkv" ∧
    (url_escape.encode_component (pathString ["home", "a b.mkv"])).data.count '/' = 0 ∧
    (pathString ["home", "a b.mkv"]).data.count '/' = 2 ∧
    (trackLines 0 ⟨["home", "a b.mkv"], "t", 0⟩)[1]? =
      some ("\t\t\t" ++ LOCATION_START_TAG ++ "file://%2Fhome%2Fa%20b.mkv"
        ++ LOCATION_END_TAG) ∧
    (into_xml ⟨⟨[⟨["home", "a b.mkv"], "t", 0⟩]⟩, []⟩)[5]? =
      some ("\t\t\t" ++ LOCATION_START_TAG ++ "file://%2Fhome%2Fa%20b.mkv"
        ++ LOCATION_END_TAG) := by
  refine ⟨by decide, by decide, by decide, by decide, ?_⟩
  rw [into_xml]
  decide

/-! ## Title escaping in the track list (claim C8) -/

/-- The per-character rule of `html_escape::encode_text` (see its docstring). -/
def escRule (c : Char) : List Char :=
  if c = '&' then "&amp;".data
  else if c = '<' then "&lt;".data
  else if c = '>' then "&gt;".data
  else [c]

theorem encode_text_data (s : String) :
    (html_escape.encode_text s).data = s.data.flatMap escRule := rfl

/-- Every ampersand in the list opens one of the three entities the escaper
emits (`&amp;`, `&lt;`, `&gt;`). -/
def ampOk : List Char → Bool
  | [] => true
  | c :: rest =>
    if c = '&' then
      ("amp;".data.isPrefixOf rest && ampOk (rest.drop 4)) ||
      ("lt;".data.isPrefixOf rest && ampOk (rest.drop 3)) ||
      ("gt;".data.isPrefixOf rest && ampOk (rest.drop 3))
    else ampOk rest
termination_by l => l.length
decreasing_by
  all_goals simp only [List.length_drop, List.length_cons]
  all_goals omega

theorem ampOk_flatMap (l : List Char) : ampOk (l.flatMap escRule) = true := by
  induction l with
  | nil =>
    rw [List.flatMap_nil, ampOk]
  | cons c rest ih =>
    rw [List.flatMap_cons]
    by_cases h1 : c = '&'
    · subst h1
      rw [show escRule '&' = '&' :: ['a','m','p',';'] from rfl, List.cons_append, ampOk,
        if_pos rfl]
      have hp : ("amp;" : String).data.isPrefixOf
          (['a','m','p',';'] ++ rest.flatMap escRule) = true :=
        List.isPrefixOf_iff_prefix.mpr (List.prefix_append _ _)
      have hd : (['a','m','p',';'] ++ rest.flatMap escRule).drop 4 =
          rest.flatMap escRule := rfl
      rw [hp, hd, ih]
      simp
    · by_cases h2 : c = '<'
      · subst h2
        rw [show escRule '<' = '&' :: ['l','t',';'] from rfl, List.cons_append, ampOk,
          if_pos rfl]
        have hp : ("lt;" : String).data.isPrefixOf
            (['l','t',';'] ++ rest.flatMap escRule) = true :=
          List.isPrefixOf_iff_prefix.mpr (List.prefix_append _ _)
        have hd : (['l','t',';'] ++ rest.flatMap escRule).drop 3 =
            rest.flatMap escRule := rfl
        rw [hp, hd, ih]
        simp
      · by_cases h3 : c = '>'
        · subst h3
          rw [show escRule '>' = '&' :: ['g','t',';'] from rfl, List.cons_append, ampOk,
            if_pos rfl]
          have hp : ("gt;" : String).data.isPrefixOf
              (['g','t',';'] ++ rest.flatMap escRule) = true :=
            List.isPrefixOf_iff_prefix.mpr (List.prefix_append _ _)
          have hd : (['g','t',';'] ++ rest.flatMap escRule).drop 3 =
              rest.flatMap escRule := rfl
          rw [hp, hd, ih]
          simp
        · rw [show escRule c = [c] from by rw [escRule, if_neg h1, if_neg h2, if_neg h3],
            List.singleton_append, ampOk, if_neg h1]
          exact ih

theorem count_lt_flatMap (l : List Char) : List.count '<' (l.flatMap escRule) = 0 := by
  induction l with
  | nil => rfl
  | cons c rest ih =>
    rw [List.flatMap_cons, List.count_append, ih]
    by_cases h1 : c = '&'
    · subst h1
      rw [show List.count '<' (escRule '&') = 0 from by decide]
    · by_cases h2 : c = '<'
      · subst h2
        rw [show List.count '<' (escRule '<') = 0 from by decide]
      · by_cases h3 : c = '>'
        · subst h3
          rw [show List.count '<' (escRule '>') = 0 from by decide]
        · rw [show escRule c = [c] from by rw [escRule, if_neg h1, if_neg h2, if_neg h3],
            List.count_cons, List.count_nil, if_neg (fun hb => h2 (eq_of_beq hb))]

theorem count_gt_flatMap (l : List Char) : List.count '>' (l.flatMap escRule) = 0 := by
  induction l with
  | nil => rfl
  | cons c rest ih =>
    rw [List.flatMap_cons, List.count_append, ih]
    by_cases h1 : c = '&'
    · subst h1
      rw [show List.count '>' (escRule '&') = 0 from by decide]
    · by_cases h2 : c = '<'
      · subst h2
        rw [show List.count '>' (escRule '<') = 0 from by decide]
      · by_cases h3 : c = '>'
        · subst h3
          rw [show List.count '>' (escRule '>') = 0 from by decide]
        · rw [show escRule c = [c] from by rw [escRule, if_neg h1, if_neg h2, if_neg h3],
            List.count_cons, List.count_nil, if_neg (fun hb => h3 (eq_of_beq hb))]

theorem count_flatMap_keep (x : Char) (hne : x ≠ '&' ∧ x ≠ '<' ∧ x ≠ '>')
    (h1 : List.count x ("&amp;" : String).data = 0)
    (h2 : List.count x ("&lt;" : String).data = 0)
    (h3 : List.count x ("&gt;" : String).data = 0) :
    ∀ l : List Char, List.count x (l.flatMap escRule) = List.count x l := by
  intro l
  induction l with
  | nil => rfl
  | cons c rest ih =>
    rw [List.flatMap_cons, List.count_append, ih, List.count_cons]
    by_cases hc1 : c = '&'
    · subst hc1
      rw [show escRule '&' = ("&amp;" : String).data from rfl, h1,
        if_neg (fun hb => hne.1 (eq_of_beq hb).symm)]
      omega
    · by_cases hc2 : c = '<'
      · subst hc2
        rw [show escRule '<' = ("&lt;" : String).data from rfl, h2,
          if_neg (fun hb => hne.2.1 (eq_of_beq hb).symm)]
        omega
      · by_cases hc3 : c = '>'
        · subst hc3
          rw [show escRule '>' = ("&gt;" : String).data from rfl, h3,
            if_neg (fun hb => hne.2.2 (eq_of_beq hb).symm)]
          omega
        · rw [show escRule c = [c] from by rw [escRule, if_neg hc1, if_neg hc2, if_neg hc3],
            List.count_cons, List.count_nil]
          omega

/-- C8 (amended): the escaper applied to title text neutralizes exactly the
three markup characters: the emitted content contains no raw `<` or `>`, and
every `&` in it opens one of the entities `&amp;`, `&lt;`, `&gt;`; but the two
quote characters `"` and `'` pass through verbatim (their counts are
preserved), so only three of the five HTML/XML specials are escaped. -/
theorem c8_title_escaping_amended (s : String) :
    List.count '<' (html_escape.encode_text s).data = 0 ∧
    List.count '>' (html_escape.encode_text s).data = 0 ∧
    ampOk (html_escape.encode_text s).data = true ∧
    List.count '"' (html_escape.encode_text s).data = List.count '"' s.data ∧
    List.count (Char.ofNat 39) (html_escape.encode_text s).data =
      List.count (Char.ofNat 39) s.data := by
  rw [encode_text_data]
  exact ⟨count_lt_flatMap _, count_gt_flatMap _, ampOk_flatMap _,
    count_flatMap_keep '"' ⟨by decide, by decide, by decide⟩
      (by decide) (by decide) (by decide) _,
    count_flatMap_keep (Char.ofNat 39) ⟨by decide, by decide, by decide⟩
      (by decide) (by decide) (by decide) _⟩

/-- C8 (counterexample to the original claim): a title containing `"` is
written into the title element with the quote unescaped (the escaper returns
it unchanged), so not all five HTML/XML special characters are escaped. -/
theorem c8_quote_unescaped :
    html_escape.encode_text "a\"b" = "a\"b" ∧
    List.count '"' ("a\"b" : String).data = 1 ∧
    (trackLines 0 ⟨["r", "x.mkv"], "a\"b", 0⟩)[2]? =
      some ("\t\t\t" ++ TITLE_START_TAG ++ "a\"b" ++ TITLE_END_TAG) :=
  ⟨by decide, by decide, by decide⟩

/-! ## Directory titles in vlc:node attributes (claim C10) -/

/-- C10: the serializer writes a directory's title verbatim into the `title`
attribute of its `vlc:node` line, with no escaping of any kind; in particular
a title containing `"` is emitted with the quote raw inside the attribute. -/
theorem c10_node_title_verbatim :
    (∀ (indent : Nat) (title : String) (ns rest : List PlaylistNode),
      (nodes_into_xml indent (PlaylistNode.dir title ns :: rest)).head? =
        some (tabs indent ++ "<vlc:node title=\"" ++ title ++ "\">")) ∧
    nodes_into_xml 2 [PlaylistNode.dir "a\"b" []] =
      ["\t\t<vlc:node title=\"a\"b\">", "\t\t</vlc:node>"] := by
  constructor
  · intro indent title ns rest
    rw [nodes_into_xml, List.cons_append]
    rfl
  · rw [nodes_into_xml]
    rw [nodes_into_xml, nodes_into_xml]
    decide
